import Mathlib

/-!
Verification development for the xconf configuration library.

The Go code is shallowly embedded: configuration maps
(map[string]interface.) become association lists with string keys,
dynamically typed values become the inductive type Val, and fallible
operations return Except / Option values.  Go map iteration order is
represented by the order of the association list; statements that
depend on it are quantified over that order.  A returned Option value
of none models a Go runtime panic.
-/

namespace Xconf

/-- IntW enumerates the Go signed/unsigned integer widths (native, 64, 32, 16, 8). -/
inductive IntW where
  | wNative
  | w64
  | w32
  | w16
  | w8
deriving DecidableEq, Repr

/-- FloatW enumerates the Go floating point widths. -/
inductive FloatW where
  | f32
  | f64
deriving DecidableEq, Repr

/-- SKey models a Go comparable scalar value used as a key of an
interface-keyed map (map[interface]interface, produced by the YAML
decoder).  Go forbids non-comparable kinds (maps, slices) as map keys,
so scalar shapes suffice. -/
inductive SKey where
  | knull
  | kstr (s : String)
  | kint (w : IntW) (n : Int)
  | kuint (w : IntW) (n : Nat)
  | kfloat (w : FloatW) (bits : Nat)
  | kbool (b : Bool)
  | kdur (ns : Int)
  | ktime (instant : Int)
  | kother (id : Nat)
deriving DecidableEq, Repr

/-- Val models a Go interface value as stored in a configuration map
(map[string]interface values).  Scalars carry their payload; float
payloads are opaque bit patterns, and timestamps and durations are
opaque instants, because no arithmetic on them is performed by the
code under study.  Containers mirror the shapes recognised by
DeepCopyConfigMap in deepcopy.go; vother stands for any other Go
runtime value, carried by reference. -/
inductive Val where
  | vnull
  | vstr (s : String)
  | vint (w : IntW) (n : Int)
  | vuint (w : IntW) (n : Nat)
  | vfloat (w : FloatW) (bits : Nat)
  | vbool (b : Bool)
  | vdur (ns : Int)
  | vtime (instant : Int)
  | vseq (xs : List Val)
  | vstrs (xs : List String)
  | vints (xs : List Int)
  | vmap (m : List (String × Val))
  | vimap (m : List (SKey × Val))
  | vother (id : Nat)

/-- ConfigMap is the embedding of a Go map[string]interface configuration
map: an association list from keys to dynamic values.  A Go map has
pairwise distinct keys; theorems add that hypothesis where it matters. -/
abbrev ConfigMap := List (String × Val)

/-- lookupKV k m returns the value stored under key k, as Go map indexing
with the comma-ok idiom does. -/
def lookupKV (k : String) : List (String × α) → Option α
  | [] => none
  | (k2, v) :: tl => if k2 = k then some v else lookupKV k tl

/-- setKV m k v models the Go assignment m[k] = v: it replaces the first
entry with key k, or appends a new entry when the key is absent. -/
def setKV (m : List (String × α)) (k : String) (v : α) : List (String × α) :=
  match m with
  | [] => [(k, v)]
  | (k2, v2) :: tl => if k2 = k then (k, v) :: tl else (k2, v2) :: setKV tl k v

/-- eraseKV k m models the Go built-in delete(m, k). -/
def eraseKV (k : String) : List (String × α) → List (String × α)
  | [] => []
  | (k2, v2) :: tl => if k2 = k then tl else (k2, v2) :: eraseKV k tl

/-- keysOf m is the list of keys of m, in iteration order. -/
def keysOf (m : List (String × α)) : List String := m.map Prod.fst

@[simp]
theorem lookupKV_nil (k : String) : lookupKV k ([] : List (String × α)) = none := rfl

@[simp]
theorem lookupKV_cons (k k2 : String) (v : α) (tl : List (String × α)) :
    lookupKV k ((k2, v) :: tl) = if k2 = k then some v else lookupKV k tl := rfl

theorem lookupKV_append (k : String) (m1 m2 : List (String × α)) :
    lookupKV k (m1 ++ m2) =
      match lookupKV k m1 with
      | some v => some v
      | none => lookupKV k m2 := by
  induction m1 with
  | nil => simp
  | cons hd tl ih =>
    obtain ⟨k2, v⟩ := hd
    by_cases h : k2 = k <;> simp [h, ih]

@[simp]
theorem keysOf_nil : keysOf ([] : List (String × α)) = [] := rfl

@[simp]
theorem keysOf_cons (k2 : String) (v : α) (tl : List (String × α)) :
    keysOf ((k2, v) :: tl) = k2 :: keysOf tl := rfl

@[simp]
theorem keysOf_append (m1 m2 : List (String × α)) :
    keysOf (m1 ++ m2) = keysOf m1 ++ keysOf m2 := by
  simp [keysOf]

theorem lookupKV_eq_none_iff (k : String) (m : List (String × α)) :
    lookupKV k m = none ↔ k ∉ keysOf m := by
  induction m with
  | nil => simp
  | cons hd tl ih =>
    obtain ⟨k2, v⟩ := hd
    by_cases h : k2 = k
    · simp [h]
    · simp [h, ih]
      tauto

theorem lookupKV_isSome_iff (k : String) (m : List (String × α)) :
    (lookupKV k m).isSome = true ↔ k ∈ keysOf m := by
  rw [Option.isSome_iff_ne_none]
  constructor
  · intro h
    by_contra hk
    exact h ((lookupKV_eq_none_iff k m).2 hk)
  · intro h he
    exact ((lookupKV_eq_none_iff k m).1 he) h

@[simp]
theorem lookupKV_setKV_self (m : List (String × α)) (k : String) (v : α) :
    lookupKV k (setKV m k v) = some v := by
  induction m with
  | nil => simp [setKV]
  | cons hd tl ih =>
    obtain ⟨k2, v2⟩ := hd
    by_cases h : k2 = k <;> simp [setKV, h, ih]

theorem lookupKV_setKV_other (m : List (String × α)) (k k' : String) (v : α)
    (hne : k ≠ k') : lookupKV k' (setKV m k v) = lookupKV k' m := by
  induction m with
  | nil => simp [setKV, hne]
  | cons hd tl ih =>
    obtain ⟨k2, v2⟩ := hd
    by_cases h : k2 = k
    · subst h
      simp [setKV, hne]
    · simp [setKV, h, ih]

theorem setKV_of_not_mem (m : List (String × α)) (k : String) (v : α)
    (h : k ∉ keysOf m) : setKV m k v = m ++ [(k, v)] := by
  induction m with
  | nil => simp [setKV]
  | cons hd tl ih =>
    obtain ⟨k2, v2⟩ := hd
    simp at h
    push_neg at h
    simp [setKV, ih h.2, Ne.symm h.1]

/-! MultiLoader (loader_multi.go).  The children are invoked
concurrently, each result being written into its own declaration-order
slot of a results slice; after the wait-group barrier the merge is a
pure function of that slice.  The embedding therefore takes the list
of child results directly. -/

/-- toLowerStr models the Go strings.ToLower call used for the duplicate
shadow set, as a character-wise lowercase map. -/
def toLowerStr (s : String) : String := String.mk (s.data.map Char.toLower)

/-- toUpperStr models the Go strings.ToUpper call used by the Config
runtime when case sensitivity is ignored. -/
def toUpperStr (s : String) : String := String.mk (s.data.map Char.toUpper)

/-- GoErr models an arbitrary Go error value returned by a child loader. -/
abbrev GoErr := Nat

/-- loadResult mirrors the loadResult struct of loader_multi.go: the
configuration map and the error captured from one child loader. -/
structure loadResult where
  configMap : ConfigMap
  err : Option GoErr

/-- MergeErr models one entry of the accumulated xerr.MultiError built by
MultiLoader.Load: either a child loader error or a KeyConflictError
carrying the duplicate key with its original case. -/
inductive MergeErr where
  | childErr (e : GoErr)
  | keyConflict (key : String)
deriving DecidableEq

/-- MergeState is the mutable state of the merge loop in
MultiLoader.Load: the accumulated configuration map, the lowercased
shadow key set unqKeys, and the accumulated multi-error. -/
structure MergeState where
  configMap : ConfigMap
  unqKeys : List String
  mErr : List MergeErr

/-- mergeEntry is the body of the inner loop of MultiLoader.Load for one
key-value entry of a child map. -/
def mergeEntry (allowKeyOverwrite : Bool) (st : MergeState) (kv : String × Val) :
    MergeState :=
  if allowKeyOverwrite then
    { st with configMap := setKV st.configMap kv.1 kv.2 }
  else
    let unqKey := toLowerStr kv.1
    if unqKey ∈ st.unqKeys then
      { st with mErr := st.mErr ++ [MergeErr.keyConflict kv.1] }
    else
      { st with
        configMap := setKV st.configMap kv.1 kv.2
        unqKeys := unqKey :: st.unqKeys }

/-- mergeResult is the body of the outer loop of MultiLoader.Load for one
child result: an errored child contributes its error to the
multi-error, a successful child has its entries merged one by one. -/
def mergeResult (allowKeyOverwrite : Bool) (st : MergeState) (r : loadResult) :
    MergeState :=
  match r.err with
  | some e => { st with mErr := st.mErr ++ [MergeErr.childErr e] }
  | none => r.configMap.foldl (mergeEntry allowKeyOverwrite) st

/-- finishMerge models the epilogue of MultiLoader.Load: a non-empty
multi-error yields (nil, error), otherwise the merged map is returned. -/
def finishMerge (st : MergeState) : Except (List MergeErr) ConfigMap :=
  if st.mErr = [] then Except.ok st.configMap else Except.error st.mErr

/-- MultiLoaderLoad embeds MultiLoader.Load of loader_multi.go as a
function of the captured child results.  When allowKeyOverwrite is
true the code reads the slice entry at index 0 before checking the
length, so an empty child list hits an out-of-range index: that Go
panic is modelled by the outer Option being none.  When the first
child succeeded its map is adopted as the merge base and the loop
starts at index 1; otherwise the base is a fresh empty map. -/
def MultiLoaderLoad (allowKeyOverwrite : Bool) (results : List loadResult) :
    Option (Except (List MergeErr) ConfigMap) :=
  match allowKeyOverwrite, results with
  | true, [] => none
  | true, r0 :: rest =>
    if r0.err = none then
      some (finishMerge (rest.foldl (mergeResult true) ⟨r0.configMap, [], []⟩))
    else
      some (finishMerge ((r0 :: rest).foldl (mergeResult true) ⟨[], [], []⟩))
  | false, rs => some (finishMerge (rs.foldl (mergeResult false) ⟨[], [], []⟩))

/-- setKVFold folds plain Go map assignments over a list of entries. -/
def setKVFold (m : List (String × α)) (es : List (String × α)) :
    List (String × α) :=
  es.foldl (fun acc kv => setKV acc kv.1 kv.2) m

/-- mergeMapsInto folds whole child maps into an accumulator map, in
declaration order, each entry overwriting any existing key. -/
def mergeMapsInto (cm : ConfigMap) (maps : List ConfigMap) : ConfigMap :=
  maps.foldl setKVFold cm

/-- lastContribution maps k selects the value for key k contributed by
the latest map in the list that contains k. -/
def lastContribution (maps : List ConfigMap) (k : String) : Option Val :=
  maps.reverse.findSome? (fun m => lookupKV k m)

theorem lookupKV_reverse_of_nodup (m : List (String × α)) (k : String)
    (hnd : (keysOf m).Nodup) : lookupKV k m.reverse = lookupKV k m := by
  induction m with
  | nil => simp
  | cons hd tl ih =>
    obtain ⟨k1, v1⟩ := hd
    simp at hnd
    rw [List.reverse_cons, lookupKV_append, ih hnd.2]
    by_cases hk : k ∈ keysOf tl
    · have h1 : k1 ≠ k := fun he => hnd.1 (he ▸ hk)
      rcases Option.ne_none_iff_exists'.1
          (fun hn => (lookupKV_eq_none_iff k tl).1 hn hk) with ⟨v, hv⟩
      simp [hv, h1]
    · have hnone : lookupKV k tl = none := (lookupKV_eq_none_iff k tl).2 hk
      simp [hnone]

theorem lookupKV_setKVFold (es : List (String × α)) (m : List (String × α))
    (k : String) :
    lookupKV k (setKVFold m es) =
      match lookupKV k es.reverse with
      | some v => some v
      | none => lookupKV k m := by
  induction es generalizing m with
  | nil => simp [setKVFold]
  | cons hd tl ih =>
    obtain ⟨k1, v1⟩ := hd
    show lookupKV k (setKVFold (setKV m k1 v1) tl) = _
    rw [ih, List.reverse_cons, lookupKV_append]
    cases h : lookupKV k tl.reverse with
    | some v => simp
    | none =>
      by_cases h1 : k1 = k
      · subst h1
        simp

      · simp [h1, lookupKV_setKV_other m k1 k v1 h1]

theorem lookupKV_setKVFold_of_nodup (es : List (String × α))
    (m : List (String × α)) (k : String) (hnd : (keysOf es).Nodup) :
    lookupKV k (setKVFold m es) =
      match lookupKV k es with
      | some v => some v
      | none => lookupKV k m := by
  rw [lookupKV_setKVFold, lookupKV_reverse_of_nodup es k hnd]

theorem lookupKV_mergeMapsInto (maps : List ConfigMap) (cm : ConfigMap)
    (k : String) (hnd : ∀ m ∈ maps, (keysOf m).Nodup) :
    lookupKV k (mergeMapsInto cm maps) =
      match lastContribution maps k with
      | some v => some v
      | none => lookupKV k cm := by
  induction maps generalizing cm with
  | nil => simp [mergeMapsInto, lastContribution]
  | cons m tl ih =>
    show lookupKV k (mergeMapsInto (setKVFold cm m) tl) = _
    rw [ih _ (fun x hx => hnd x (List.mem_cons_of_mem m hx))]
    have hm := lookupKV_setKVFold_of_nodup m cm k (hnd m (List.mem_cons_self m tl))
    unfold lastContribution
    rw [List.reverse_cons, List.findSome?_append]
    cases h : (tl.reverse.findSome? fun m2 => lookupKV k m2) with
    | some v => simp [lastContribution, h]
    | none =>
      simp only [lastContribution] at *
      rw [h] at *
      simp only [Option.orElse_none, Option.none_orElse, List.findSome?_cons,
        List.findSome?_nil]
      rw [hm]
      cases hl : lookupKV k m <;> simp [hl]

theorem foldl_mergeEntry_true (es : List (String × Val)) (st : MergeState) :
    es.foldl (mergeEntry true) st =
      { st with configMap := setKVFold st.configMap es } := by
  induction es generalizing st with
  | nil => simp [setKVFold]
  | cons kv tl ih =>
    rw [List.foldl_cons, ih]
    simp [mergeEntry, setKVFold]

theorem mergeResult_allOk (rs : List loadResult) (st : MergeState)
    (hok : ∀ r ∈ rs, r.err = none) :
    rs.foldl (mergeResult true) st =
      { st with configMap := mergeMapsInto st.configMap (rs.map loadResult.configMap) } := by
  induction rs generalizing st with
  | nil => simp [mergeMapsInto]
  | cons r tl ih =>
    have hr : r.err = none := hok r (List.mem_cons_self r tl)
    have hstep : mergeResult true st r =
        { st with configMap := setKVFold st.configMap r.configMap } := by
      simp only [mergeResult, hr]
      exact foldl_mergeEntry_true _ _
    rw [List.foldl_cons, hstep,
      ih _ (fun x hx => hok x (List.mem_cons_of_mem r hx))]
    rfl

theorem lastContribution_cons (m : ConfigMap) (maps : List ConfigMap) (k : String) :
    lastContribution (m :: maps) k =
      match lastContribution maps k with
      | some v => some v
      | none => lookupKV k m := by
  unfold lastContribution
  rw [List.reverse_cons, List.findSome?_append]
  cases h : maps.reverse.findSome? (fun m2 => lookupKV k m2) <;>
    simp [h, List.findSome?]
  cases lookupKV k m <;> rfl

theorem lastContribution_eq_none_iff (maps : List ConfigMap) (k : String) :
    lastContribution maps k = none ↔ ∀ m ∈ maps, lookupKV k m = none := by
  unfold lastContribution
  rw [List.findSome?_eq_none_iff]
  constructor
  · intro h m hm
    exact h m (List.mem_reverse.2 hm)
  · intro h m hm
    exact h m (List.mem_reverse.1 hm)

/-- C2 (amended: at least one child loader is required, because with an
empty child list and allowKeyOverwrite Load panics instead of merging) :
for every MultiLoader with allowKeyOverwrite whose child loaders all
succeed, the merged result maps each key to the value contributed by
the latest child, in declaration order, whose map contains that key;
hence the key set of the result is the union of the key sets of the
children, and for pairwise-disjoint children every value equals the
value of the single contributing child. -/
theorem MultiLoaderLoad_allowOverwrite_lastChildWins
    (rs : List loadResult) (hne : rs ≠ [])
    (hok : ∀ r ∈ rs, r.err = none)
    (hnd : ∀ r ∈ rs, (keysOf r.configMap).Nodup) :
    ∃ m, MultiLoaderLoad true rs = some (Except.ok m) ∧
      (∀ k, lookupKV k m = lastContribution (rs.map loadResult.configMap) k) ∧
      (∀ k, k ∈ keysOf m ↔ ∃ r ∈ rs, k ∈ keysOf r.configMap) := by
  obtain ⟨r0, rest, rfl⟩ : ∃ r0 rest, rs = r0 :: rest := by
    cases rs with
    | nil => exact absurd rfl hne
    | cons a l => exact ⟨a, l, rfl⟩
  have hr0 : r0.err = none := hok r0 (List.mem_cons_self r0 rest)
  have hfold := mergeResult_allOk rest ⟨r0.configMap, [], []⟩
    (fun x hx => hok x (List.mem_cons_of_mem r0 hx))
  refine ⟨mergeMapsInto r0.configMap (rest.map loadResult.configMap), ?_, ?_, ?_⟩
  · simp [MultiLoaderLoad, hr0, hfold, finishMerge]
  · intro k
    rw [lookupKV_mergeMapsInto _ _ _
      (by
        intro m hm
        rw [List.mem_map] at hm
        obtain ⟨r, hr, rfl⟩ := hm
        exact hnd r (List.mem_cons_of_mem r0 hr))]
    rw [List.map_cons, lastContribution_cons]
  · intro k
    have h1 : lookupKV k (mergeMapsInto r0.configMap (rest.map loadResult.configMap)) =
        lastContribution ((r0 :: rest).map loadResult.configMap) k := by
      rw [lookupKV_mergeMapsInto _ _ _
        (by
          intro m hm
          rw [List.mem_map] at hm
          obtain ⟨r, hr, rfl⟩ := hm
          exact hnd r (List.mem_cons_of_mem r0 hr))]
      rw [List.map_cons, lastContribution_cons]
    rw [← lookupKV_isSome_iff, h1]
    rw [Option.isSome_iff_ne_none]
    constructor
    · intro h
      by_contra hno
      push_neg at hno
      apply h
      rw [lastContribution_eq_none_iff]
      intro m hm
      rw [List.mem_map] at hm
      obtain ⟨r, hr, rfl⟩ := hm
      rw [lookupKV_eq_none_iff]
      exact hno r hr
    · intro ⟨r, hr, hk⟩ hnone
      rw [lastContribution_eq_none_iff] at hnone
      exact (lookupKV_eq_none_iff k r.configMap).1
        (hnone r.configMap (List.mem_map.2 ⟨r, hr, rfl⟩)) hk

/-- rsS2 is the concrete child-result list of scenario S2 of the spec:
loaders A, B, C with overlapping keys, all successful. -/
def rsS2 : List loadResult :=
  [loadResult.mk [("foo", Val.vstr "A"), ("bar", Val.vstr "A")] none,
   loadResult.mk [("foo", Val.vstr "B")] none,
   loadResult.mk [("bar", Val.vstr "C")] none]

/-- C2 witness: scenario S2 of the spec; the theorem applies at rsS2. -/
theorem MultiLoaderLoad_allowOverwrite_lastChildWins_witness :
    ∃ m, MultiLoaderLoad true rsS2 = some (Except.ok m) ∧
      (∀ k, lookupKV k m = lastContribution (rsS2.map loadResult.configMap) k) ∧
      (∀ k, k ∈ keysOf m ↔ ∃ r ∈ rsS2, k ∈ keysOf r.configMap) :=
  MultiLoaderLoad_allowOverwrite_lastChildWins rsS2
    (by simp [rsS2])
    (by
      intro r hr
      simp [rsS2] at hr
      rcases hr with rfl | rfl | rfl <;> rfl)
    (by
      intro r hr
      simp [rsS2] at hr
      rcases hr with rfl | rfl | rfl <;> simp [keysOf])

/-- C2 counterexample: with an empty child list (whose children all
trivially succeed) and allowKeyOverwrite, Load does not return a merged
map at all: it reads index 0 of an empty results slice and panics, so
no result exists, contradicting the claim that the merged result maps
each key to the latest contribution. -/
theorem MultiLoaderLoad_allowOverwrite_empty_counterexample :
    (MultiLoaderLoad true []).isSome = false := rfl

/-- C4 (code bug): the claim says Load never panics, including for the
empty child list under both values of allowKeyOverwrite.  With
allowKeyOverwrite and no children the code evaluates results[0] on an
empty slice and panics (modelled by none), while with
allowKeyOverwrite false the empty list correctly yields an empty map
and no error. -/
theorem MultiLoaderLoad_empty_panics :
    MultiLoaderLoad true [] = none ∧
      MultiLoaderLoad false [] = some (Except.ok []) := ⟨rfl, rfl⟩

/-- lowKeys es is the list of lowercased keys of the entries es, the
shadow set used by duplicate detection in MultiLoader.Load. -/
def lowKeys (es : List (String × Val)) : List String :=
  es.map (fun kv => toLowerStr kv.1)

/-- okMaps rs lists the configuration maps of the successful children,
in declaration order. -/
def okMaps (rs : List loadResult) : List ConfigMap :=
  rs.filterMap (fun r => match r.err with | none => some r.configMap | some _ => none)

/-- allEntries rs lists every key-value entry of every successful child,
in declaration then iteration order. -/
def allEntries (rs : List loadResult) : List (String × Val) :=
  (okMaps rs).flatten

@[simp]
theorem lowKeys_nil : lowKeys [] = [] := rfl

@[simp]
theorem lowKeys_cons (kv : String × Val) (tl : List (String × Val)) :
    lowKeys (kv :: tl) = toLowerStr kv.1 :: lowKeys tl := rfl

theorem mergeEntry_false_eq (st : MergeState) (kv : String × Val) :
    mergeEntry false st kv =
      if toLowerStr kv.1 ∈ st.unqKeys then
        { st with mErr := st.mErr ++ [MergeErr.keyConflict kv.1] }
      else
        { st with
          configMap := setKV st.configMap kv.1 kv.2
          unqKeys := toLowerStr kv.1 :: st.unqKeys } := by
  simp [mergeEntry]

theorem mergeEntry_false_mErr_mono (es : List (String × Val)) (st : MergeState)
    (e : MergeErr) (he : e ∈ st.mErr) :
    e ∈ (es.foldl (mergeEntry false) st).mErr := by
  induction es generalizing st with
  | nil => exact he
  | cons kv tl ih =>
    rw [List.foldl_cons, mergeEntry_false_eq]
    by_cases h : toLowerStr kv.1 ∈ st.unqKeys
    · rw [if_pos h]
      exact ih _ (by simp [he])
    · rw [if_neg h]
      exact ih _ he

theorem mergeEntry_false_unq (es : List (String × Val)) (st : MergeState)
    (c : String) :
    c ∈ (es.foldl (mergeEntry false) st).unqKeys ↔
      c ∈ st.unqKeys ∨ c ∈ lowKeys es := by
  induction es generalizing st with
  | nil => simp
  | cons kv tl ih =>
    rw [List.foldl_cons, mergeEntry_false_eq]
    by_cases h : toLowerStr kv.1 ∈ st.unqKeys
    · rw [if_pos h, ih, lowKeys_cons]
      simp only [List.mem_cons]
      constructor
      · rintro (hc | hc)
        · exact Or.inl hc
        · exact Or.inr (Or.inr hc)
      · rintro (hc | hc | hc)
        · exact Or.inl hc
        · exact Or.inl (hc ▸ h)
        · exact Or.inr hc
    · rw [if_neg h, ih, lowKeys_cons]
      simp only [List.mem_cons]
      tauto

theorem mergeEntry_false_conflict (es : List (String × Val)) (st : MergeState)
    (c : String)
    (h : (c ∈ st.unqKeys ∧ c ∈ lowKeys es) ∨ 2 ≤ (lowKeys es).count c) :
    ∃ k, toLowerStr k = c ∧
      MergeErr.keyConflict k ∈ (es.foldl (mergeEntry false) st).mErr := by
  induction es generalizing st with
  | nil => simp at h
  | cons kv tl ih =>
    rw [List.foldl_cons, mergeEntry_false_eq]
    by_cases hin : toLowerStr kv.1 ∈ st.unqKeys
    · rw [if_pos hin]
      by_cases hc : c = toLowerStr kv.1
      · subst hc
        exact ⟨kv.1, rfl, mergeEntry_false_mErr_mono _ _ _ (by simp)⟩
      · apply ih
        rcases h with ⟨h1, h2⟩ | h2
        · left
          refine ⟨h1, ?_⟩
          rw [lowKeys_cons, List.mem_cons] at h2
          tauto
        · right
          rw [lowKeys_cons, List.count_cons] at h2
          have hbeq : (toLowerStr kv.1 == c) = false := by
            simp [Ne.symm hc]
          rw [hbeq] at h2
          simpa using h2
    · rw [if_neg hin]
      apply ih
      by_cases hc : c = toLowerStr kv.1
      · subst hc
        rcases h with ⟨h1, _⟩ | h2
        · exact absurd h1 hin
        · rw [lowKeys_cons, List.count_cons] at h2
          simp only [beq_self_eq_true, if_true, if_pos] at h2
          left
          refine ⟨by simp, ?_⟩
          rw [← List.count_pos_iff]
          omega
      · rcases h with ⟨h1, h2⟩ | h2
        · left
          refine ⟨List.mem_cons_of_mem _ h1, ?_⟩
          rw [lowKeys_cons, List.mem_cons] at h2
          tauto
        · right
          rw [lowKeys_cons, List.count_cons] at h2
          have hbeq : (toLowerStr kv.1 == c) = false := by
            simp [Ne.symm hc]
          rw [hbeq] at h2
          simpa using h2

theorem mergeEntry_false_clean (es : List (String × Val)) (st : MergeState)
    (hnd : (lowKeys es).Nodup)
    (hdisj : ∀ c ∈ lowKeys es, c ∉ st.unqKeys)
    (hinv : ∀ k ∈ keysOf st.configMap, toLowerStr k ∈ st.unqKeys) :
    (es.foldl (mergeEntry false) st).configMap = st.configMap ++ es ∧
      (es.foldl (mergeEntry false) st).mErr = st.mErr := by
  induction es generalizing st with
  | nil => simp
  | cons kv tl ih =>
    have hkv : toLowerStr kv.1 ∉ st.unqKeys :=
      hdisj (toLowerStr kv.1) (by rw [lowKeys_cons]; exact List.mem_cons_self _ _)
    have hkey : kv.1 ∉ keysOf st.configMap := fun hmem => hkv (hinv kv.1 hmem)
    rw [List.foldl_cons, mergeEntry_false_eq, if_neg hkv]
    rw [lowKeys_cons, List.nodup_cons] at hnd
    have := ih
      { st with
        configMap := setKV st.configMap kv.1 kv.2
        unqKeys := toLowerStr kv.1 :: st.unqKeys }
      hnd.2
      (by
        intro c hc
        rw [List.mem_cons]
        push_neg
        refine ⟨?_, hdisj c (List.mem_cons_of_mem _ hc)⟩
        intro he
        exact hnd.1 (he ▸ hc))
      (by
        intro k hk
        rw [setKV_of_not_mem _ _ _ hkey] at hk
        rw [keysOf_append] at hk
        rcases List.mem_append.1 hk with hk | hk
        · exact List.mem_cons_of_mem _ (hinv k hk)
        · have : k = kv.1 := by simpa [keysOf] using hk
          subst this
          exact List.mem_cons_self _ _)
    rw [setKV_of_not_mem _ _ _ hkey] at this ⊢
    rw [this.1, this.2]
    constructor
    · show (st.configMap ++ [(kv.1, kv.2)]) ++ tl = st.configMap ++ kv :: tl
      rw [List.append_assoc]
      rfl
    · rfl

theorem okMaps_cons_ok (r : loadResult) (tl : List loadResult)
    (h : r.err = none) : okMaps (r :: tl) = r.configMap :: okMaps tl := by
  simp [okMaps, h]

theorem okMaps_cons_err (r : loadResult) (tl : List loadResult) (e : GoErr)
    (h : r.err = some e) : okMaps (r :: tl) = okMaps tl := by
  simp [okMaps, h]

theorem allEntries_cons_ok (r : loadResult) (tl : List loadResult)
    (h : r.err = none) :
    allEntries (r :: tl) = r.configMap ++ allEntries tl := by
  simp [allEntries, okMaps_cons_ok r tl h]

theorem allEntries_cons_err (r : loadResult) (tl : List loadResult) (e : GoErr)
    (h : r.err = some e) : allEntries (r :: tl) = allEntries tl := by
  simp [allEntries, okMaps_cons_err r tl e h]

theorem lowKeys_append (a b : List (String × Val)) :
    lowKeys (a ++ b) = lowKeys a ++ lowKeys b := by
  simp [lowKeys]

theorem mergeResult_false_mErr_mono (rs : List loadResult) (st : MergeState)
    (e : MergeErr) (he : e ∈ st.mErr) :
    e ∈ (rs.foldl (mergeResult false) st).mErr := by
  induction rs generalizing st with
  | nil => exact he
  | cons r tl ih =>
    rw [List.foldl_cons]
    cases herr : r.err with
    | some e2 =>
      apply ih
      simp [mergeResult, herr, he]
    | none =>
      apply ih
      simp only [mergeResult, herr]
      exact mergeEntry_false_mErr_mono _ _ _ he

theorem mergeResult_false_unq (rs : List loadResult) (st : MergeState)
    (c : String) :
    c ∈ (rs.foldl (mergeResult false) st).unqKeys ↔
      c ∈ st.unqKeys ∨ c ∈ lowKeys (allEntries rs) := by
  induction rs generalizing st with
  | nil => simp [allEntries, okMaps]
  | cons r tl ih =>
    rw [List.foldl_cons]
    cases herr : r.err with
    | some e2 =>
      rw [ih, allEntries_cons_err r tl e2 herr]
      simp [mergeResult, herr]
    | none =>
      rw [ih, allEntries_cons_ok r tl herr, lowKeys_append]
      simp only [mergeResult, herr]
      rw [mergeEntry_false_unq]
      rw [List.mem_append]
      tauto

theorem mergeResult_false_conflict (rs : List loadResult) (st : MergeState)
    (c : String)
    (h : (c ∈ st.unqKeys ∧ c ∈ lowKeys (allEntries rs)) ∨
      2 ≤ (lowKeys (allEntries rs)).count c) :
    ∃ k, toLowerStr k = c ∧
      MergeErr.keyConflict k ∈ (rs.foldl (mergeResult false) st).mErr := by
  induction rs generalizing st with
  | nil => simp [allEntries, okMaps] at h
  | cons r tl ih =>
    rw [List.foldl_cons]
    cases herr : r.err with
    | some e2 =>
      rw [allEntries_cons_err r tl e2 herr] at h
      apply ih
      simpa [mergeResult, herr] using h
    | none =>
      rw [allEntries_cons_ok r tl herr, lowKeys_append] at h
      simp only [mergeResult, herr]
      rcases h with ⟨h1, h2⟩ | h2
      · rcases List.mem_append.1 h2 with hA | hB
        · obtain ⟨k, hk1, hk2⟩ :=
            mergeEntry_false_conflict r.configMap st c (Or.inl ⟨h1, hA⟩)
          exact ⟨k, hk1, mergeResult_false_mErr_mono _ _ _ hk2⟩
        · apply ih
          left
          refine ⟨?_, hB⟩
          rw [mergeEntry_false_unq]
          exact Or.inl h1
      · rw [List.count_append] at h2
        by_cases hA2 : 2 ≤ (lowKeys r.configMap).count c
        · obtain ⟨k, hk1, hk2⟩ :=
            mergeEntry_false_conflict r.configMap st c (Or.inr hA2)
          exact ⟨k, hk1, mergeResult_false_mErr_mono _ _ _ hk2⟩
        · by_cases hB2 : 2 ≤ (lowKeys (allEntries tl)).count c
          · exact ih _ (Or.inr hB2)
          · have hA1 : 1 ≤ (lowKeys r.configMap).count c := by omega
            have hB1 : 1 ≤ (lowKeys (allEntries tl)).count c := by omega
            apply ih
            left
            refine ⟨?_, List.count_pos_iff.1 (by omega)⟩
            rw [mergeEntry_false_unq]
            exact Or.inr (List.count_pos_iff.1 (by omega))

theorem mergeResult_false_clean (rs : List loadResult) (st : MergeState)
    (hok : ∀ r ∈ rs, r.err = none)
    (hnd : (lowKeys (allEntries rs)).Nodup)
    (hdisj : ∀ c ∈ lowKeys (allEntries rs), c ∉ st.unqKeys)
    (hinv : ∀ k ∈ keysOf st.configMap, toLowerStr k ∈ st.unqKeys) :
    (rs.foldl (mergeResult false) st).configMap = st.configMap ++ allEntries rs ∧
      (rs.foldl (mergeResult false) st).mErr = st.mErr := by
  induction rs generalizing st with
  | nil => simp [allEntries, okMaps]
  | cons r tl ih =>
    have herr : r.err = none := hok r (List.mem_cons_self r tl)
    rw [allEntries_cons_ok r tl herr, lowKeys_append] at hnd hdisj
    rw [List.foldl_cons]
    simp only [mergeResult, herr]
    have hndA : (lowKeys r.configMap).Nodup := hnd.of_append_left
    have hclean := mergeEntry_false_clean r.configMap st hndA
      (fun c hc => hdisj c (List.mem_append_left _ hc)) hinv
    have hrest := ih (r.configMap.foldl (mergeEntry false) st)
      (fun x hx => hok x (List.mem_cons_of_mem r hx))
      hnd.of_append_right
      (by
        intro c hc
        rw [mergeEntry_false_unq]
        push_neg
        refine ⟨hdisj c (List.mem_append_right _ hc), ?_⟩
        intro hcA
        exact (List.disjoint_of_nodup_append hnd) hcA hc)
      (by
        intro k hk
        rw [hclean.1, keysOf_append] at hk
        rw [mergeEntry_false_unq]
        rcases List.mem_append.1 hk with hk | hk
        · exact Or.inl (hinv k hk)
        · right
          rw [lowKeys]
          rw [List.mem_map]
          rw [keysOf, List.mem_map] at hk
          obtain ⟨kv, hkv, rfl⟩ := hk
          exact ⟨kv, hkv, rfl⟩)
    rw [hrest.1, hrest.2, hclean.1, hclean.2]
    rw [allEntries_cons_ok r tl herr]
    rw [List.append_assoc]
    exact ⟨rfl, rfl⟩

/-- C3: for a MultiLoader that does not allow key overwrite, whenever the
entries of the successful children contain a key twice up to
lowercasing, Load returns a nil map together with a multi-error that
holds, for every such duplicated lowercased key, a KeyConflictError
whose key lowercases to it; and when no duplicate exists and no child
errs, Load returns the merged map, whose entries are exactly the
entries of the children with their original key case, with a nil
error. -/
theorem MultiLoaderLoad_noOverwrite_conflicts (rs : List loadResult) :
    ((∃ c, 2 ≤ (lowKeys (allEntries rs)).count c) →
      ∃ es, MultiLoaderLoad false rs = some (Except.error es) ∧
        ∀ c, 2 ≤ (lowKeys (allEntries rs)).count c →
          ∃ k, toLowerStr k = c ∧ MergeErr.keyConflict k ∈ es) ∧
    ((lowKeys (allEntries rs)).Nodup → (∀ r ∈ rs, r.err = none) →
      MultiLoaderLoad false rs = some (Except.ok (allEntries rs))) := by
  constructor
  · intro ⟨c, hc⟩
    obtain ⟨k, _, hk2⟩ :=
      mergeResult_false_conflict rs ⟨[], [], []⟩ c (Or.inr hc)
    have hne : (rs.foldl (mergeResult false) ⟨[], [], []⟩).mErr ≠ [] := by
      intro habs
      rw [habs] at hk2
      exact List.not_mem_nil _ hk2
    refine ⟨(rs.foldl (mergeResult false) ⟨[], [], []⟩).mErr, ?_, ?_⟩
    · simp [MultiLoaderLoad, finishMerge, hne]
    · intro c2 hc2
      exact mergeResult_false_conflict rs ⟨[], [], []⟩ c2 (Or.inr hc2)
  · intro hnd hok
    have hclean := mergeResult_false_clean rs ⟨[], [], []⟩ hok hnd
      (by simp) (by simp [keysOf])
    simp only [MultiLoaderLoad]
    rw [finishMerge, if_pos hclean.2]
    rw [hclean.1]
    rfl

/-- rsDup is a concrete child-result pair with two successful children
whose keys collide after lowercasing, and rsOk a pair without
collision. -/
def rsDup : List loadResult :=
  [loadResult.mk [("Foo", Val.vstr "1")] none,
   loadResult.mk [("foo", Val.vstr "2")] none]

/-- rsOk is a concrete pair of successful children with distinct keys. -/
def rsOk : List loadResult :=
  [loadResult.mk [("foo", Val.vstr "1")] none,
   loadResult.mk [("bar", Val.vstr "2")] none]

/-- C3 witness: both halves of the theorem applied at concrete inputs: a
case-insensitive duplicate yields a key-conflict multi-error, and
disjoint children yield the merged map. -/
theorem MultiLoaderLoad_noOverwrite_conflicts_witness :
    (∃ es, MultiLoaderLoad false rsDup = some (Except.error es) ∧
      ∀ c, 2 ≤ (lowKeys (allEntries rsDup)).count c →
        ∃ k, toLowerStr k = c ∧ MergeErr.keyConflict k ∈ es) ∧
    MultiLoaderLoad false rsOk = some (Except.ok (allEntries rsOk)) :=
  ⟨(MultiLoaderLoad_noOverwrite_conflicts rsDup).1 ⟨"foo", by decide⟩,
   (MultiLoaderLoad_noOverwrite_conflicts rsOk).2 (by decide)
     (by
       intro r hr
       simp [rsOk] at hr
       rcases hr with rfl | rfl <;> rfl)⟩

/-! FilterKV decorator (loader_decorator_filter_kv.go).  A filter is a
type tag (the FilterType byte) together with its IsAllowed predicate;
for a blacklist filter the predicate already is IsAllowed, that is,
false means the filter denies the entry.  The decorator iterates over
the child map deleting entries in place; since each key is visited
exactly once and the decision for a key depends on that entry only,
the loop is the pointwise filter below. -/

/-- FilterType mirrors the byte-valued filter type of the source. -/
abbrev FilterType := Nat

/-- FilterTypeWhitelist is the whitelist filter tag. -/
def FilterTypeWhitelist : FilterType := 1

/-- FilterTypeBlacklist is the blacklist filter tag. -/
def FilterTypeBlacklist : FilterType := 2

/-- FilterKV models a value implementing the FilterKV interface: its
Type tag and its IsAllowed predicate. -/
structure FilterKV where
  ty : FilterType
  isAllowed : String → Val → Bool

/-- filterKVSurvives is the decision taken by the body of the key loop of
FilterKVLoader for one key-value pair: the entry stays when no
blacklist filter denies it and, if any whitelist filter exists, at
least one whitelist filter allows it. -/
def filterKVSurvives (filters : List FilterKV) (k : String) (v : Val) : Bool :=
  let blacklistFilters := filters.filter (fun f => f.ty == FilterTypeBlacklist)
  let whitelistFilters := filters.filter (fun f => f.ty == FilterTypeWhitelist)
  blacklistFilters.all (fun f => f.isAllowed k v) &&
    (whitelistFilters.isEmpty || whitelistFilters.any (fun f => f.isAllowed k v))

/-- FilterKVLoader embeds the loader returned by FilterKVLoader of the
source: on child success it deletes every entry that does not survive
the filters; a child error is propagated. -/
def FilterKVLoader (filters : List FilterKV) (child : Except GoErr ConfigMap) :
    Except GoErr ConfigMap :=
  match child with
  | Except.error e => Except.error e
  | Except.ok configMap =>
    Except.ok (configMap.filter (fun kv => filterKVSurvives filters kv.1 kv.2))

theorem lookupKV_filter (m : List (String × Val)) (p : String × Val → Bool)
    (hnd : (keysOf m).Nodup) (k : String) (v : Val) :
    lookupKV k (m.filter p) = some v ↔
      lookupKV k m = some v ∧ p (k, v) = true := by
  induction m with
  | nil => simp
  | cons hd tl ih =>
    obtain ⟨k2, v2⟩ := hd
    rw [keysOf_cons, List.nodup_cons] at hnd
    by_cases hp : p (k2, v2) = true
    · rw [List.filter_cons_of_pos hp]
      by_cases hk : k2 = k
      · subst hk
        simp only [lookupKV_cons, if_pos rfl]
        constructor
        · intro he
          exact ⟨he, by rw [← Option.some_inj.1 he]; exact hp⟩
        · intro ⟨he, _⟩
          exact he
      · simp only [lookupKV_cons, if_neg hk]
        exact ih hnd.2
    · rw [List.filter_cons_of_neg (by simpa using hp)]
      by_cases hk : k2 = k
      · subst hk
        rw [ih hnd.2]
        have hnone : lookupKV k2 tl = none :=
          (lookupKV_eq_none_iff k2 tl).2 hnd.1
        simp only [hnone, lookupKV_cons, if_pos rfl]
        constructor
        · intro ⟨he, _⟩
          cases he
        · intro ⟨he, hpe⟩
          rw [← Option.some_inj.1 he] at hpe
          exact absurd hpe hp
      · simp only [lookupKV_cons, if_neg hk]
        exact ih hnd.2

/-- C8: for every FilterKV decorator over a successfully loading child and
every filter list, a key-value pair of the child map survives in the
result exactly when no blacklist filter denies it and either no
whitelist filter exists or at least one whitelist filter permits it;
in particular a pair denied by some blacklist filter is absent even
when a whitelist filter permits it. -/
theorem FilterKVLoader_survives_iff (filters : List FilterKV) (m : ConfigMap)
    (hnd : (keysOf m).Nodup) :
    ∃ m2, FilterKVLoader filters (Except.ok m) = Except.ok m2 ∧
      ∀ k v, lookupKV k m2 = some v ↔
        lookupKV k m = some v ∧
        (∀ f ∈ filters, f.ty = FilterTypeBlacklist → f.isAllowed k v = true) ∧
        ((∀ f ∈ filters, f.ty ≠ FilterTypeWhitelist) ∨
          ∃ f ∈ filters, f.ty = FilterTypeWhitelist ∧ f.isAllowed k v = true) := by
  refine ⟨_, rfl, ?_⟩
  intro k v
  rw [lookupKV_filter m _ hnd k v]
  unfold filterKVSurvives
  simp only [Bool.and_eq_true, Bool.or_eq_true, List.all_eq_true, List.any_eq_true,
    List.mem_filter, List.isEmpty_iff, List.filter_eq_nil_iff, beq_iff_eq]
  constructor
  · intro ⟨h1, h2, h3⟩
    refine ⟨h1, ?_, ?_⟩
    · intro f hf hty
      exact h2 f ⟨hf, hty⟩
    · rcases h3 with h3 | ⟨f, ⟨hf, hty⟩, hal⟩
      · exact Or.inl (fun f hf => h3 f hf)
      · exact Or.inr ⟨f, hf, hty, hal⟩
  · intro ⟨h1, h2, h3⟩
    refine ⟨h1, ?_, ?_⟩
    · intro f ⟨hf, hty⟩
      exact h2 f hf hty
    · rcases h3 with h3 | ⟨f, hf, hty, hal⟩
      · exact Or.inl (fun f hf => h3 f hf)
      · exact Or.inr ⟨f, ⟨hf, hty⟩, hal⟩

/-- C8 witness: scenario S4 shaped input: two whitelist filters, one
blacklist filter, five keys; the theorem applies. -/
theorem FilterKVLoader_survives_iff_witness :
    ∃ m2, FilterKVLoader
        [FilterKV.mk FilterTypeWhitelist
          (fun k _ => k == "FOO_1" || k == "FOO_2"),
         FilterKV.mk FilterTypeWhitelist
          (fun _ v => match v with | Val.vstr s => s == "w2" | _ => false),
         FilterKV.mk FilterTypeBlacklist (fun k _ => !(k == "FOO_4"))]
        (Except.ok
          [("FOO_1", Val.vstr "w1"), ("FOO_2", Val.vstr "w1"),
           ("FOO_3", Val.vstr "w2"), ("FOO_4", Val.vstr "w1"),
           ("FOO_5", Val.vstr "w1")]) = Except.ok m2 ∧
      ∀ k v, lookupKV k m2 = some v ↔
        lookupKV k
          [("FOO_1", Val.vstr "w1"), ("FOO_2", Val.vstr "w1"),
           ("FOO_3", Val.vstr "w2"), ("FOO_4", Val.vstr "w1"),
           ("FOO_5", Val.vstr "w1")] = some v ∧
        (∀ f ∈ [FilterKV.mk FilterTypeWhitelist
            (fun k _ => k == "FOO_1" || k == "FOO_2"),
          FilterKV.mk FilterTypeWhitelist
            (fun _ v => match v with | Val.vstr s => s == "w2" | _ => false),
          FilterKV.mk FilterTypeBlacklist (fun k _ => !(k == "FOO_4"))],
          f.ty = FilterTypeBlacklist → f.isAllowed k v = true) ∧
        ((∀ f ∈ [FilterKV.mk FilterTypeWhitelist
            (fun k _ => k == "FOO_1" || k == "FOO_2"),
          FilterKV.mk FilterTypeWhitelist
            (fun _ v => match v with | Val.vstr s => s == "w2" | _ => false),
          FilterKV.mk FilterTypeBlacklist (fun k _ => !(k == "FOO_4"))],
          f.ty ≠ FilterTypeWhitelist) ∨
          ∃ f ∈ [FilterKV.mk FilterTypeWhitelist
            (fun k _ => k == "FOO_1" || k == "FOO_2"),
          FilterKV.mk FilterTypeWhitelist
            (fun _ v => match v with | Val.vstr s => s == "w2" | _ => false),
          FilterKV.mk FilterTypeBlacklist (fun k _ => !(k == "FOO_4"))],
            f.ty = FilterTypeWhitelist ∧ f.isAllowed k v = true) :=
  FilterKVLoader_survives_iff _ _ (by simp)

/-! Config.Get and castValueByDefault (config.go).  The spf13 cast
library is an external collaborator; it is abstracted as a cast oracle
castE mapping a target Go type and a value to the cast result, none
standing for a cast error.  The Go switch on the runtime type of the
default value is embedded through goTyOf. -/

/-- GoTy enumerates the Go runtime types relevant to castValueByDefault:
the coercible types of the switch, plus tags for every other value
shape of Val.  tNil is the type-less nil interface. -/
inductive GoTy where
  | tString
  | tInt
  | tUint
  | tFloat64
  | tBool
  | tDuration
  | tInt64
  | tInt32
  | tInt16
  | tInt8
  | tUint64
  | tUint32
  | tUint16
  | tUint8
  | tFloat32
  | tTime
  | tStringSlice
  | tIntSlice
  | tNil
  | tSeq
  | tMap
  | tIMap
  | tOther (id : Nat)
deriving DecidableEq

/-- intTyOf maps a signed integer width to its Go type. -/
def intTyOf : IntW -> GoTy
  | IntW.wNative => GoTy.tInt
  | IntW.w64 => GoTy.tInt64
  | IntW.w32 => GoTy.tInt32
  | IntW.w16 => GoTy.tInt16
  | IntW.w8 => GoTy.tInt8

/-- uintTyOf maps an unsigned integer width to its Go type. -/
def uintTyOf : IntW -> GoTy
  | IntW.wNative => GoTy.tUint
  | IntW.w64 => GoTy.tUint64
  | IntW.w32 => GoTy.tUint32
  | IntW.w16 => GoTy.tUint16
  | IntW.w8 => GoTy.tUint8

/-- goTyOf computes the Go runtime type of a value, as inspected by the
type switch of castValueByDefault. -/
def goTyOf : Val -> GoTy
  | Val.vnull => GoTy.tNil
  | Val.vstr _ => GoTy.tString
  | Val.vint w _ => intTyOf w
  | Val.vuint w _ => uintTyOf w
  | Val.vfloat FloatW.f64 _ => GoTy.tFloat64
  | Val.vfloat FloatW.f32 _ => GoTy.tFloat32
  | Val.vbool _ => GoTy.tBool
  | Val.vdur _ => GoTy.tDuration
  | Val.vtime _ => GoTy.tTime
  | Val.vseq _ => GoTy.tSeq
  | Val.vstrs _ => GoTy.tStringSlice
  | Val.vints _ => GoTy.tIntSlice
  | Val.vmap _ => GoTy.tMap
  | Val.vimap _ => GoTy.tIMap
  | Val.vother n => GoTy.tOther n

/-- coercible t is true exactly for the types enumerated by the switch of
castValueByDefault; every other type falls into the default branch. -/
def coercible : GoTy -> Bool
  | GoTy.tNil | GoTy.tSeq | GoTy.tMap | GoTy.tIMap | GoTy.tOther _ => false
  | _ => true

/-- isNilVal d is the Go comparison d != nil, negated. -/
def isNilVal : Val -> Bool
  | Val.vnull => true
  | _ => false

/-- castValueByDefault embeds castValueByDefault of config.go over the
cast oracle: a coercible default type dispatches to the corresponding
cast call, returning the default on cast error; a non-coercible type
returns the value directly. -/
def castValueByDefault (castE : GoTy -> Val -> Option Val)
    (value defaultValue : Val) : Val :=
  if coercible (goTyOf defaultValue) then
    match castE (goTyOf defaultValue) value with
    | some castValue => castValue
    | none => defaultValue
  else value

/-- GetCfg embeds defaultConfig.Get of config.go: an optional uppercase
of the probe key, the snapshot lookup, and the default / cast logic.
The read lock taken when reload is enabled does not change the value
computed and is omitted. -/
def GetCfg (ignoreCaseSensitivity : Bool) (castE : GoTy -> Val -> Option Val)
    (configMap : ConfigMap) (key : String) (defaults : List Val) : Val :=
  let probe := if ignoreCaseSensitivity then toUpperStr key else key
  let found := lookupKV probe configMap
  let value := found.getD Val.vnull
  match defaults with
  | defaultValue :: _ =>
    if found.isSome then
      if isNilVal defaultValue then value
      else castValueByDefault castE value defaultValue
    else defaultValue
  | [] => value

theorem coercible_not_nil (d : Val) (h : coercible (goTyOf d) = true) :
    isNilVal d = false := by
  cases d <;> first | rfl | exact absurd h (by decide)

/-- C6: postcondition of Config.Get.  For every key, optional default and
cast oracle: an absent key yields nil without a default and the
default with one; a present key yields the raw value without a
default; with a default of a coercible runtime type the stored value
is passed to the corresponding cast, the default being returned on
cast failure; for any other default type (including the nil default)
the raw value is returned unmodified. -/
theorem GetCfg_postcondition (castE : GoTy -> Val -> Option Val)
    (cm : ConfigMap) (k : String) (d : Val) (ds : List Val) (v : Val) :
    (lookupKV k cm = none -> GetCfg false castE cm k [] = Val.vnull) /\
    (lookupKV k cm = none -> GetCfg false castE cm k (d :: ds) = d) /\
    (lookupKV k cm = some v -> GetCfg false castE cm k [] = v) /\
    (lookupKV k cm = some v -> coercible (goTyOf d) = true ->
      GetCfg false castE cm k (d :: ds) =
        match castE (goTyOf d) v with
        | some cv => cv
        | none => d) /\
    (lookupKV k cm = some v -> coercible (goTyOf d) = false ->
      GetCfg false castE cm k (d :: ds) = v) := by
  refine ⟨?_, ?_, ?_, ?_, ?_⟩
  · intro h
    simp [GetCfg, h]
  · intro h
    simp [GetCfg, h]
  · intro h
    simp [GetCfg, h]
  · intro h hc
    simp [GetCfg, h, coercible_not_nil d hc, castValueByDefault, hc]
  · intro h hc
    cases hn : isNilVal d
    · simp [GetCfg, h, hn, castValueByDefault, hc]
    · simp [GetCfg, h, hn]

/-- C6 witness: a present key with a coercible string default goes
through the cast oracle. -/
theorem GetCfg_postcondition_witness :
    GetCfg false (fun _ _ => some (Val.vstr "cast"))
      [("a", Val.vstr "x")] "a" [Val.vstr "d"] = Val.vstr "cast" := by
  have h := (GetCfg_postcondition (fun _ _ => some (Val.vstr "cast"))
    [("a", Val.vstr "x")] "a" (Val.vstr "d") [] (Val.vstr "x")).2.2.2.1
    (by rfl) (by rfl)
  simpa using h

/-! Observer notification (config.go, notifyObservers).  The Go
reflect.DeepEqual comparison on configuration maps is embedded as
deepEqV / deepEqMap: length equality plus per-key deep value equality,
with interface-keyed nested maps matched on scalar keys, exactly as Go
map keys are matched by the language equality. -/

/-- lookupIV finds the value bound to an interface-typed key, matching
keys shallowly (Go language equality) as reflect.DeepEqual does for
map keys. -/
def lookupIV (k : SKey) : List (SKey × Val) -> Option Val
  | [] => none
  | (k2, v2) :: tl => if k2 == k then some v2 else lookupIV k tl

mutual

/-- deepEqV embeds reflect.DeepEqual on two interface values of the
shapes representable in a configuration map. -/
def deepEqV : Val -> Val -> Bool
  | Val.vnull, Val.vnull => true
  | Val.vstr a, Val.vstr b => a == b
  | Val.vint w a, Val.vint w2 b => w == w2 && a == b
  | Val.vuint w a, Val.vuint w2 b => w == w2 && a == b
  | Val.vfloat w a, Val.vfloat w2 b => w == w2 && a == b
  | Val.vbool a, Val.vbool b => a == b
  | Val.vdur a, Val.vdur b => a == b
  | Val.vtime a, Val.vtime b => a == b
  | Val.vstrs a, Val.vstrs b => a == b
  | Val.vints a, Val.vints b => a == b
  | Val.vother a, Val.vother b => a == b
  | Val.vseq a, Val.vseq b => deepEqSeq a b
  | Val.vmap a, Val.vmap b => a.length == b.length && deepEqEntries a b
  | Val.vimap a, Val.vimap b => a.length == b.length && deepEqIEntries a b
  | _, _ => false

/-- deepEqSeq compares two untyped sequences element-wise. -/
def deepEqSeq : List Val -> List Val -> Bool
  | [], [] => true
  | a :: as2, b :: bs => deepEqV a b && deepEqSeq as2 bs
  | _, _ => false

/-- deepEqEntries checks that every entry of the first string-keyed map
is deeply matched in the second. -/
def deepEqEntries : List (String × Val) -> List (String × Val) -> Bool
  | [], _ => true
  | (k, v) :: tl, m2 =>
    (match lookupKV k m2 with
     | some v2 => deepEqV v v2
     | none => false) && deepEqEntries tl m2

/-- deepEqIEntries checks that every entry of the first interface-keyed
map is deeply matched in the second. -/
def deepEqIEntries : List (SKey × Val) -> List (SKey × Val) -> Bool
  | [], _ => true
  | (k, v) :: tl, m2 =>
    (match lookupIV k m2 with
     | some v2 => deepEqV v v2
     | none => false) && deepEqIEntries tl m2

end

/-- deepEqMap embeds reflect.DeepEqual on two configuration maps. -/
def deepEqMap (m1 m2 : ConfigMap) : Bool :=
  m1.length == m2.length && deepEqEntries m1 m2

/-- changedKeys embeds the changed-key computation of notifyObservers:
keys of the old snapshot whose value (nil-defaulted lookup, as Go map
indexing yields the zero interface) is not deeply equal to the value
under the same key in the new snapshot, followed by the keys present
only in the new snapshot. -/
def changedKeys (oldConfigMap newConfigMap : ConfigMap) : List String :=
  (keysOf oldConfigMap).filter
    (fun k => !(deepEqV ((lookupKV k oldConfigMap).getD Val.vnull)
      ((lookupKV k newConfigMap).getD Val.vnull)))
  ++ (keysOf newConfigMap).filter (fun k => !(lookupKV k oldConfigMap).isSome)

/-- notifyObservers embeds defaultConfig.notifyObservers as the list of
calls it performs: with no registered observer, or deeply equal
snapshots, no call is made; otherwise every observer is called in
registration order with the changed-keys list. -/
def notifyObservers (observers : List Nat) (oldConfigMap newConfigMap : ConfigMap) :
    List (Nat × List String) :=
  if observers.isEmpty || deepEqMap oldConfigMap newConfigMap then []
  else observers.map (fun o => (o, changedKeys oldConfigMap newConfigMap))

/-- C7 counterexample: old snapshot carries key c with a nil value, the
new snapshot is empty.  The snapshots are structurally different, so
the claim says the sole observer receives the changed-key set
containing c (a key present only in the old snapshot); the code
compares the nil-defaulted lookups as equal, computes no changed key,
and calls the observer with the empty list. -/
theorem notifyObservers_nil_value_counterexample :
    deepEqMap [("c", Val.vnull)] [] = false ∧
      notifyObservers [0] [("c", Val.vnull)] [] = [(0, [])] := by
  constructor
  · rfl
  · simp [notifyObservers, deepEqMap, deepEqEntries, deepEqV, changedKeys,
      keysOf, lookupKV]

/-- C7 (amended: a key is reported as changed when it is in the old
snapshot with its nil-defaulted old value not deeply equal to its
nil-defaulted new value, or when it is only in the new snapshot; in
particular a key present only in the old snapshot whose stored value
was nil is not reported) : with at least one registered observer and a
structurally different new snapshot, every observer is invoked, in
registration order, with exactly that changed-key set; with a
structurally equal snapshot no observer is invoked. -/
theorem notifyObservers_spec (obs : List Nat) (oldM newM : ConfigMap) :
    (deepEqMap oldM newM = true -> notifyObservers obs oldM newM = []) ∧
    (obs ≠ [] -> deepEqMap oldM newM = false ->
      notifyObservers obs oldM newM =
        obs.map (fun o => (o, changedKeys oldM newM)) ∧
      ∀ k, k ∈ changedKeys oldM newM ↔
        ((k ∈ keysOf oldM ∧
          deepEqV ((lookupKV k oldM).getD Val.vnull)
            ((lookupKV k newM).getD Val.vnull) = false) ∨
         (k ∈ keysOf newM ∧ lookupKV k oldM = none))) := by
  constructor
  · intro h
    simp [notifyObservers, h]
  · intro hobs hne
    constructor
    · have hie : obs.isEmpty = false := by
        cases obs with
        | nil => exact absurd rfl hobs
        | cons a l => rfl
      simp [notifyObservers, hie, hne]
    · intro k
      unfold changedKeys
      rw [List.mem_append, List.mem_filter, List.mem_filter]
      constructor
      · rintro (⟨h1, h2⟩ | ⟨h1, h2⟩)
        · left
          exact ⟨h1, by simpa using h2⟩
        · right
          refine ⟨h1, ?_⟩
          rw [lookupKV_eq_none_iff]
          rw [← lookupKV_isSome_iff k oldM]
          simpa using h2
      · rintro (⟨h1, h2⟩ | ⟨h1, h2⟩)
        · left
          exact ⟨h1, by simpa using h2⟩
        · right
          refine ⟨h1, ?_⟩
          simp [h2]

/-- C7 witness: one reload that updates key B, removes key C and adds
key A, with two registered observers; both observers are called, in
order, and the changed-key set is exactly those three keys. -/
theorem notifyObservers_spec_witness :
    notifyObservers [0, 1] [("B", Val.vstr "1"), ("C", Val.vstr "2")]
        [("B", Val.vstr "9"), ("A", Val.vstr "3")] =
      [(0, changedKeys [("B", Val.vstr "1"), ("C", Val.vstr "2")]
        [("B", Val.vstr "9"), ("A", Val.vstr "3")]),
       (1, changedKeys [("B", Val.vstr "1"), ("C", Val.vstr "2")]
        [("B", Val.vstr "9"), ("A", Val.vstr "3")])] ∧
      changedKeys [("B", Val.vstr "1"), ("C", Val.vstr "2")]
        [("B", Val.vstr "9"), ("A", Val.vstr "3")] = ["B", "C", "A"] := by
  constructor
  · exact ((notifyObservers_spec [0, 1]
      [("B", Val.vstr "1"), ("C", Val.vstr "2")]
      [("B", Val.vstr "9"), ("A", Val.vstr "3")]).2
      (by simp)
      (by simp [deepEqMap, deepEqEntries, deepEqV, lookupKV])).1
  · simp [changedKeys, keysOf, lookupKV, deepEqV]

/-! FlagSetLoader (flag-set source loader).  A parsed Go flag set is
modelled as a list of flags, each with its name, current textual value
and whether it was explicitly set; VisitAll iterates over all defined
flags and Visit only over the explicitly set ones.  The loader closure
state is the captured option, the atomic initialized flag and the
accumulated configuration map. -/

/-- GoFlag models one flag of a flag.FlagSet: name, current textual
value, and whether it was explicitly set on the command line. -/
structure GoFlag where
  name : String
  value : String
  explicitlySet : Bool

/-- FlagSet models a flag.FlagSet: whether Parse ran, and its flags. -/
structure FlagSet where
  parsed : Bool
  flags : List GoFlag

/-- FlagLoaderState is the closure state of FlagSetLoader: the captured
visit-all option, the atomic initialized flag, and the configuration
map filled by the first visiting Load. -/
structure FlagLoaderState where
  all : Bool
  initialized : Bool
  configMap : ConfigMap

/-- FlagSetLoaderNew models the FlagSetLoader constructor: the option
defaults to true and the map starts empty. -/
def FlagSetLoaderNew (visitAll : List Bool) : FlagLoaderState :=
  { all := visitAll.headD true, initialized := false, configMap := [] }

/-- flagSetVisit is the effect of flgSet.VisitAll / flgSet.Visit with
storeFlagsIntoMap: each visited flag writes its current text value
under its name. -/
def flagSetVisit (all : Bool) (fs : FlagSet) : ConfigMap :=
  (if all then fs.flags else fs.flags.filter (fun f => f.explicitlySet)).foldl
    (fun cm f => setKV cm f.name (Val.vstr f.value)) []

/-- FlagSetLoaderLoad embeds one call of the loader returned by
FlagSetLoader: only the first call on a parsed flag set visits the
flags (the compare-and-swap on initialized); every call returns a deep
copy of the accumulated map, which deep copy is the identity in this
pure embedding. -/
def FlagSetLoaderLoad (fs : FlagSet) (st : FlagLoaderState) :
    ConfigMap × FlagLoaderState :=
  if fs.parsed && !st.initialized then
    let cm := flagSetVisit st.all fs
    (cm, { st with initialized := true, configMap := cm })
  else
    (st.configMap, st)

/-- C9 counterexample: a parsed flag set whose single flag has value a at
the first Load and value b at the second Load (the flag was mutated in
between).  The claim says the second Load returns the current value b;
the code returns the snapshot value a, because the visit runs only
once. -/
theorem FlagSetLoaderLoad_stale_counterexample :
    (FlagSetLoaderLoad (FlagSet.mk true [GoFlag.mk "f" "b" true])
      (FlagSetLoaderLoad (FlagSet.mk true [GoFlag.mk "f" "a" true])
        (FlagLoaderState.mk true false [])).2).1 = [("f", Val.vstr "a")] ∧
      Val.vstr "a" ≠ Val.vstr "b" := by
  constructor
  · rfl
  · simp

/-- C9 (amended: the flag values are captured once, at the first Load
call made after the flag set was parsed, and every subsequent Load
returns that captured snapshot) : the first Load on a parsed flag set
returns one entry per visited flag, mapping the flag name to its text
value at that moment, visiting all defined flags when the option is
true or omitted and only the explicitly set ones when it is false; an
already initialized loader returns the stored snapshot unchanged. -/
theorem FlagSetLoaderLoad_spec (fs : FlagSet) (st : FlagLoaderState)
    (hnd : (fs.flags.map GoFlag.name).Nodup) :
    (fs.parsed = true → st.initialized = false →
      (FlagSetLoaderLoad fs st).2.initialized = true ∧
      (FlagSetLoaderLoad fs st).1 = (FlagSetLoaderLoad fs st).2.configMap ∧
      ∀ k, lookupKV k (FlagSetLoaderLoad fs st).1 =
        lookupKV k ((if st.all then fs.flags
          else fs.flags.filter (fun f => f.explicitlySet)).map
          (fun f => (f.name, Val.vstr f.value)))) ∧
    (st.initialized = true → FlagSetLoaderLoad fs st = (st.configMap, st)) := by
  constructor
  · intro hp hi
    have hcond : (fs.parsed && !st.initialized) = true := by
      rw [hp, hi]
      rfl
    refine ⟨?_, ?_, ?_⟩
    · simp [FlagSetLoaderLoad, hcond]
    · simp [FlagSetLoaderLoad, hcond]
    · intro k
      have hsel :
          ((if st.all then fs.flags
            else fs.flags.filter (fun f => f.explicitlySet)).map
            GoFlag.name).Nodup := by
        by_cases ha : st.all
        · simpa [ha] using hnd
        · rw [if_neg ha]
          exact hnd.sublist ((List.filter_sublist fs.flags).map GoFlag.name)
      have hvisit : flagSetVisit st.all fs =
          setKVFold []
            ((if st.all then fs.flags
              else fs.flags.filter (fun f => f.explicitlySet)).map
              (fun f => (f.name, Val.vstr f.value))) := by
        unfold flagSetVisit setKVFold
        rw [List.foldl_map]
      have hknd :
          (keysOf ((if st.all then fs.flags
            else fs.flags.filter (fun f => f.explicitlySet)).map
            (fun f => (f.name, Val.vstr f.value)))).Nodup := by
        unfold keysOf
        rw [List.map_map]
        exact hsel
      simp only [FlagSetLoaderLoad, hcond, if_true, if_pos]
      rw [hvisit, lookupKV_setKVFold_of_nodup _ _ _ hknd]
      cases lookupKV k ((if st.all then fs.flags
        else fs.flags.filter (fun f => f.explicitlySet)).map
        (fun f => (f.name, Val.vstr f.value))) <;> rfl
  · intro hi
    simp [FlagSetLoaderLoad, hi]

/-- C9 witness: the theorem applied to a parsed two-flag set, one flag
explicitly set, fresh loader state with the option omitted. -/
theorem FlagSetLoaderLoad_spec_witness :
    ((FlagSet.mk true [GoFlag.mk "a" "1" true, GoFlag.mk "b" "2" false]).parsed = true →
      (FlagSetLoaderNew []).initialized = false →
      (FlagSetLoaderLoad (FlagSet.mk true [GoFlag.mk "a" "1" true, GoFlag.mk "b" "2" false])
        (FlagSetLoaderNew [])).2.initialized = true ∧
      (FlagSetLoaderLoad (FlagSet.mk true [GoFlag.mk "a" "1" true, GoFlag.mk "b" "2" false])
        (FlagSetLoaderNew [])).1 =
        (FlagSetLoaderLoad (FlagSet.mk true [GoFlag.mk "a" "1" true, GoFlag.mk "b" "2" false])
          (FlagSetLoaderNew [])).2.configMap ∧
      ∀ k, lookupKV k (FlagSetLoaderLoad
          (FlagSet.mk true [GoFlag.mk "a" "1" true, GoFlag.mk "b" "2" false])
          (FlagSetLoaderNew [])).1 =
        lookupKV k ((if (FlagSetLoaderNew []).all then
            (FlagSet.mk true [GoFlag.mk "a" "1" true, GoFlag.mk "b" "2" false]).flags
          else (FlagSet.mk true [GoFlag.mk "a" "1" true, GoFlag.mk "b" "2" false]).flags.filter
            (fun f => f.explicitlySet)).map
          (fun f => (f.name, Val.vstr f.value)))) ∧
    ((FlagSetLoaderNew []).initialized = true →
      FlagSetLoaderLoad (FlagSet.mk true [GoFlag.mk "a" "1" true, GoFlag.mk "b" "2" false])
        (FlagSetLoaderNew []) = ((FlagSetLoaderNew []).configMap, FlagSetLoaderNew [])) :=
  FlagSetLoaderLoad_spec
    (FlagSet.mk true [GoFlag.mk "a" "1" true, GoFlag.mk "b" "2" false])
    (FlagSetLoaderNew []) (by simp)

/-! Consul cache (loader_consul.go, consulCache and
ConsulLoader.kvPairsLoad).  The HTTP layer, base-64 decoding and the
JSON/YAML value decoders are external collaborators; the whole
per-record decoding (base-64 plus getRemoteKVPairConfigMap) is
abstracted as a decode oracle.  The deep copies taken on cache save
and cache hit are the identity in this pure embedding; claim C1 covers
the sharing aspect. -/

/-- consulKVPair mirrors the consulKVPair struct: key, base-64 encoded
value blob, and the server-assigned modify index. -/
structure consulKVPair where
  Key : String
  Value : String
  ModifyIndex : Int

/-- consulCache mirrors the consulCache struct: the cached configuration
map snapshot and the key-to-modify-index map. -/
structure consulCache where
  configMap : ConfigMap
  versionIDs : List (String × Int)

/-- consulCacheLoad embeds consulCache.load: nil cache or empty result
list or differing cardinality is a miss; a single mismatching modify
index (against the zero-defaulted Go map lookup) is a miss; otherwise
the cached snapshot is returned (as a deep copy in the Go code). -/
def consulCacheLoad (cache : Option consulCache) (kvPairs : List consulKVPair) :
    Option ConfigMap :=
  match cache with
  | none => none
  | some c =>
    if kvPairs.length = 0 ∨ kvPairs.length ≠ c.versionIDs.length then none
    else if kvPairs.all
        (fun p => p.ModifyIndex == (lookupKV p.Key c.versionIDs).getD 0) then
      some c.configMap
    else none

/-- consulCacheSave embeds consulCache.save: a nil cache ignores the
store, otherwise the snapshot (deep copied in the Go code) and the
version map replace the cached pair. -/
def consulCacheSave (cache : Option consulCache) (cm : ConfigMap)
    (vids : List (String × Int)) : Option consulCache :=
  match cache with
  | none => none
  | some _ => some (consulCache.mk cm vids)

/-- consulMergeStep merges the configuration map decoded from one record
into the accumulator: the first record map is adopted, later maps are
merged entry by entry with overwrite. -/
def consulMergeStep (acc : Option ConfigMap) (dm : ConfigMap) : ConfigMap :=
  match acc with
  | none => dm
  | some cm => setKVFold cm dm

/-- consulDecodeAll embeds the decoding loop of kvPairsLoad over the
decode oracle: the first decode error aborts, otherwise the per-record
maps are merged in order. -/
def consulDecodeAll (decodePair : consulKVPair -> Except GoErr ConfigMap) :
    List consulKVPair -> Option ConfigMap -> Except GoErr ConfigMap
  | [], acc => Except.ok (acc.getD [])
  | p :: tl, acc =>
    match decodePair p with
    | Except.error e => Except.error e
    | Except.ok dm => consulDecodeAll decodePair tl (some (consulMergeStep acc dm))

/-- consulVersionIDs is the key-to-modify-index map gathered by the
decoding loop, a later record overwriting an earlier one with the same
key. -/
def consulVersionIDs (kvPairs : List consulKVPair) : List (String × Int) :=
  kvPairs.foldl (fun vids p => setKV vids p.Key p.ModifyIndex) []

/-- kvPairsLoad embeds ConsulLoader.kvPairsLoad: a cache hit returns the
cached snapshot without touching the decode oracle; otherwise every
record is decoded and merged, and on success the result and the
version map are stored into the cache. -/
def kvPairsLoad (decodePair : consulKVPair -> Except GoErr ConfigMap)
    (cache : Option consulCache) (kvPairs : List consulKVPair) :
    Except GoErr (ConfigMap × Option consulCache) :=
  match consulCacheLoad cache kvPairs with
  | some configMap => Except.ok (configMap, cache)
  | none =>
    match consulDecodeAll decodePair kvPairs none with
    | Except.error e => Except.error e
    | Except.ok cm =>
      Except.ok (cm, consulCacheSave cache cm
        (if cache.isSome then consulVersionIDs kvPairs else []))

/-- C5 counterexample: an empty fetched record list against a cache whose
version map is also empty.  Cardinalities agree (0 = 0) and the
modify-index check holds vacuously, so the claimed iff demands a cache
hit returning the cached snapshot; the code treats an empty record
list as a miss and takes the decoding path. -/
theorem consulCacheLoad_empty_counterexample :
    ([] : List consulKVPair).length = (consulCache.mk [] []).versionIDs.length ∧
    (([] : List consulKVPair).all
      (fun p => p.ModifyIndex ==
        (lookupKV p.Key (consulCache.mk [] []).versionIDs).getD 0)) = true ∧
    consulCacheLoad (some (consulCache.mk [] [])) [] = none :=
  ⟨rfl, rfl, rfl⟩

/-- C5 (amended: a cache hit additionally requires the fetched record
list to be non-empty) : for the Consul loader with caching enabled,
Load returns the cached snapshot with nil error, never invoking base
64 or value-format decoding, exactly when the fetched record list is
non-empty, has the same cardinality as the cached key-to-modify-index
map, and every fetched record carries the modify index recorded for
its key; on a cache miss with successful decoding it returns the
merged decoded maps and stores that result together with the map from
each key to the modify index of the last record carrying that key. -/
theorem consulCache_spec (c : consulCache)
    (kvPairs : List consulKVPair)
    (decodePair : consulKVPair -> Except GoErr ConfigMap) :
    (∀ m, consulCacheLoad (some c) kvPairs = some m ↔
      (kvPairs ≠ [] ∧ kvPairs.length = c.versionIDs.length ∧
        kvPairs.all
          (fun p => p.ModifyIndex == (lookupKV p.Key c.versionIDs).getD 0) = true ∧
        m = c.configMap)) ∧
    (∀ m, consulCacheLoad (some c) kvPairs = some m →
      kvPairsLoad decodePair (some c) kvPairs = Except.ok (m, some c)) ∧
    (consulCacheLoad (some c) kvPairs = none →
      ∀ cm, consulDecodeAll decodePair kvPairs none = Except.ok cm →
        kvPairsLoad decodePair (some c) kvPairs =
          Except.ok (cm, some (consulCache.mk cm (consulVersionIDs kvPairs))) ∧
        ∀ k, lookupKV k (consulVersionIDs kvPairs) =
          lookupKV k ((kvPairs.map (fun p => (p.Key, p.ModifyIndex))).reverse)) := by
  refine ⟨?_, ?_, ?_⟩
  · intro m
    show (if kvPairs.length = 0 ∨ kvPairs.length ≠ c.versionIDs.length then none
      else if kvPairs.all
          (fun p => p.ModifyIndex == (lookupKV p.Key c.versionIDs).getD 0) then
        some c.configMap
      else none) = some m ↔ _
    by_cases h1 : kvPairs.length = 0 ∨ kvPairs.length ≠ c.versionIDs.length
    · rw [if_pos h1]
      constructor
      · intro h
        cases h
      · intro ⟨hne, hlen, _, _⟩
        rcases h1 with h1 | h1
        · exact absurd (List.length_eq_zero.1 h1) hne
        · exact absurd hlen h1
    · rw [if_neg h1]
      push_neg at h1
      by_cases h2 : kvPairs.all
          (fun p => p.ModifyIndex == (lookupKV p.Key c.versionIDs).getD 0) = true
      · rw [if_pos h2]
        constructor
        · intro h
          refine ⟨?_, h1.2, h2, (Option.some_inj.1 h).symm⟩
          intro habs
          rw [habs] at h1
          exact h1.1 rfl
        · intro ⟨_, _, _, hm⟩
          rw [hm]
      · rw [if_neg h2]
        constructor
        · intro h
          cases h
        · intro ⟨_, _, hall, _⟩
          exact absurd hall h2
  · intro m h
    unfold kvPairsLoad
    rw [h]
  · intro h cm hdec
    constructor
    · unfold kvPairsLoad
      rw [h, hdec]
      rfl
    · intro k
      unfold consulVersionIDs
      have : kvPairs.foldl (fun vids p => setKV vids p.Key p.ModifyIndex) [] =
          setKVFold [] (kvPairs.map (fun p => (p.Key, p.ModifyIndex))) := by
        unfold setKVFold
        rw [List.foldl_map]
      rw [this, lookupKV_setKVFold]
      cases lookupKV k (kvPairs.map (fun p => (p.Key, p.ModifyIndex))).reverse <;> rfl

/-- C5 witness: scenario S3: the cache holds key K at modify index 20 and
the server returns the same index with a corrupted value; the decode
oracle always fails, yet Load returns the cached snapshot with nil
error because decoding is skipped on the hit path. -/
theorem consulCache_spec_witness :
    kvPairsLoad (fun _ => Except.error 9)
      (some (consulCache.mk [("K", Val.vstr "v")] [("K", 20)]))
      [consulKVPair.mk "K" "corrupted" 20] =
      Except.ok ([("K", Val.vstr "v")],
        some (consulCache.mk [("K", Val.vstr "v")] [("K", 20)])) :=
  (consulCache_spec (consulCache.mk [("K", Val.vstr "v")] [("K", 20)])
    [consulKVPair.mk "K" "corrupted" 20] (fun _ => Except.error 9)).2.1
    [("K", Val.vstr "v")] (by rfl)

/-! toUppercaseConfigMap (config.go).  The Go loop ranges over the map,
deleting each visited key and inserting its value under the uppercased
key; the value is read at visit time.  Go map range order is
arbitrary, so the embedding takes the visit order as a parameter, a
permutation of the original keys.  A key inserted during the loop may
additionally be visited by the range; such a visit erases and
reinserts the same binding and leaves the map, as a function,
unchanged, so restricting the order to the original keys loses no
observable behaviour. -/

theorem eraseKV_sublist (k : String) (m : List (String × α)) :
    (eraseKV k m).Sublist m := by
  induction m with
  | nil => simp [eraseKV]
  | cons hd tl ih =>
    obtain ⟨k2, v2⟩ := hd
    unfold eraseKV
    by_cases h : k2 = k
    · rw [if_pos h]
      exact (List.sublist_cons_self _ _)
    · rw [if_neg h]
      exact ih.cons₂ _

theorem lookupKV_eraseKV_other (k k2 : String) (m : List (String × α))
    (hne : k2 ≠ k) : lookupKV k2 (eraseKV k m) = lookupKV k2 m := by
  induction m with
  | nil => simp [eraseKV]
  | cons hd tl ih =>
    obtain ⟨k3, v3⟩ := hd
    unfold eraseKV
    by_cases h : k3 = k
    · rw [if_pos h]
      rw [lookupKV_cons, if_neg (by rw [h]; exact fun he => hne he.symm)]
    · rw [if_neg h]
      rw [lookupKV_cons, lookupKV_cons, ih]

theorem lookupKV_eraseKV_self (k : String) (m : List (String × α))
    (hnd : (keysOf m).Nodup) : lookupKV k (eraseKV k m) = none := by
  induction m with
  | nil => simp [eraseKV]
  | cons hd tl ih =>
    obtain ⟨k2, v2⟩ := hd
    rw [keysOf_cons, List.nodup_cons] at hnd
    unfold eraseKV
    by_cases h : k2 = k
    · rw [if_pos h]
      rw [lookupKV_eq_none_iff]
      rw [← h]
      exact hnd.1
    · rw [if_neg h]
      rw [lookupKV_cons, if_neg h]
      exact ih hnd.2

theorem mem_keysOf_eraseKV (k x : String) (m : List (String × α))
    (hx : x ∈ keysOf (eraseKV k m)) : x ∈ keysOf m :=
  ((eraseKV_sublist k m).map Prod.fst).mem hx

theorem mem_keysOf_eraseKV_of_ne (k x : String) (m : List (String × α))
    (hx : x ∈ keysOf m) (hne : x ≠ k) : x ∈ keysOf (eraseKV k m) := by
  rw [← lookupKV_isSome_iff] at hx ⊢
  rw [lookupKV_eraseKV_other k x m hne]
  exact hx

theorem not_mem_keysOf_eraseKV_self (k : String) (m : List (String × α))
    (hnd : (keysOf m).Nodup) : k ∉ keysOf (eraseKV k m) := by
  rw [← lookupKV_isSome_iff, lookupKV_eraseKV_self k m hnd]
  simp

theorem nodup_keysOf_eraseKV (k : String) (m : List (String × α))
    (hnd : (keysOf m).Nodup) : (keysOf (eraseKV k m)).Nodup :=
  hnd.sublist ((eraseKV_sublist k m).map Prod.fst)

theorem mem_keysOf_setKV (k x : String) (v : α) (m : List (String × α)) :
    x ∈ keysOf (setKV m k v) ↔ x = k ∨ x ∈ keysOf m := by
  induction m with
  | nil => simp [setKV]
  | cons hd tl ih =>
    obtain ⟨k2, v2⟩ := hd
    unfold setKV
    by_cases h : k2 = k
    · rw [if_pos h, keysOf_cons, keysOf_cons, List.mem_cons, List.mem_cons, h]
      tauto
    · rw [if_neg h, keysOf_cons, keysOf_cons, List.mem_cons, List.mem_cons, ih]
      tauto

theorem nodup_keysOf_setKV (k : String) (v : α) (m : List (String × α))
    (hnd : (keysOf m).Nodup) : (keysOf (setKV m k v)).Nodup := by
  induction m with
  | nil => simp [setKV, keysOf]
  | cons hd tl ih =>
    obtain ⟨k2, v2⟩ := hd
    rw [keysOf_cons, List.nodup_cons] at hnd
    unfold setKV
    by_cases h : k2 = k
    · rw [if_pos h, keysOf_cons, List.nodup_cons]
      rw [← h]
      exact ⟨hnd.1, hnd.2⟩
    · rw [if_neg h, keysOf_cons, List.nodup_cons]
      refine ⟨?_, ih hnd.2⟩
      rw [mem_keysOf_setKV]
      push_neg
      exact ⟨h, hnd.1⟩

theorem charOfNat_toNat_small (n : Nat) (h : n < 55296) :
    (Char.ofNat n).toNat = n := by
  have hv : n.isValidChar := Or.inl h
  rw [Char.ofNat, dif_pos hv]
  simp [Char.ofNatAux, Char.toNat, UInt32.ofNat', UInt32.toNat]

theorem charToUpper_idem (c : Char) : c.toUpper.toUpper = c.toUpper := by
  unfold Char.toUpper
  by_cases h : c.toNat >= 97 ∧ c.toNat <= 122
  · rw [if_pos h]
    have ht : (Char.ofNat (c.toNat - 32)).toNat = c.toNat - 32 :=
      charOfNat_toNat_small _ (by omega)
    rw [if_neg (by omega)]
  · rw [if_neg h, if_neg h]

theorem toUpperStr_idem (s : String) :
    toUpperStr (toUpperStr s) = toUpperStr s := by
  show String.mk (((s.data).map Char.toUpper).map Char.toUpper) =
    String.mk ((s.data).map Char.toUpper)
  rw [List.map_map]
  congr 1
  apply List.map_congr_left
  intro a _
  exact charToUpper_idem a

/-- toUppercaseStep is the body of the range loop of toUppercaseConfigMap
for one visited key: read the current value, delete the key, insert
the value under the uppercased key. -/
def toUppercaseStep (s : ConfigMap) (key : String) : ConfigMap :=
  match lookupKV key s with
  | none => s
  | some value => setKV (eraseKV key s) (toUpperStr key) value

/-- toUppercaseConfigMap embeds toUppercaseConfigMap of config.go, the
range order over the original keys being a parameter. -/
def toUppercaseConfigMap (ord : List String) (s : ConfigMap) : ConfigMap :=
  ord.foldl toUppercaseStep s

/-- UpInv is the loop invariant of toUppercaseConfigMap relative to the
original map m, the current map s and the keys rest still to visit:
the keys of s are unvisited original keys or uppercased images,
unvisited keys are still present, visited originals have their image
present, and every stored value originates from an original entry of
the same uppercase class. -/
def UpInv (m s : ConfigMap) (rest : List String) : Prop :=
  (∀ x ∈ rest, x ∈ keysOf m) ∧
  (keysOf s).Nodup ∧
  (∀ x ∈ keysOf s, x ∈ rest ∨ ∃ k ∈ keysOf m, toUpperStr k = x) ∧
  (∀ x ∈ rest, x ∈ keysOf s) ∧
  (∀ k ∈ keysOf m, k ∈ rest ∨ toUpperStr k ∈ keysOf s) ∧
  (∀ x v, lookupKV x s = some v →
    ∃ k, lookupKV k m = some v ∧ toUpperStr k = toUpperStr x)

theorem toUppercaseStep_inv (m s : ConfigMap) (key : String)
    (rest : List String) (hord : (key :: rest).Nodup)
    (hinv : UpInv m s (key :: rest)) :
    UpInv m (toUppercaseStep s key) rest := by
  obtain ⟨i0, i1, i2, i3, i5, i4⟩ := hinv
  rw [List.nodup_cons] at hord
  have hkeym : key ∈ keysOf m := i0 key (List.mem_cons_self _ _)
  have hkeys : key ∈ keysOf s := i3 key (List.mem_cons_self _ _)
  obtain ⟨v0, hv0⟩ : ∃ v0, lookupKV key s = some v0 := by
    rw [← lookupKV_isSome_iff] at hkeys
    exact Option.isSome_iff_exists.1 hkeys
  have hstep : toUppercaseStep s key =
      setKV (eraseKV key s) (toUpperStr key) v0 := by
    unfold toUppercaseStep
    rw [hv0]
  rw [hstep]
  refine ⟨?_, ?_, ?_, ?_, ?_, ?_⟩
  · intro x hx
    exact i0 x (List.mem_cons_of_mem _ hx)
  · exact nodup_keysOf_setKV _ _ _ (nodup_keysOf_eraseKV _ _ i1)
  · intro x hx
    rw [mem_keysOf_setKV] at hx
    rcases hx with rfl | hx
    · exact Or.inr ⟨key, hkeym, rfl⟩
    · have hxs : x ∈ keysOf s := mem_keysOf_eraseKV _ _ _ hx
      have hxk : x ≠ key := by
        intro he
        exact not_mem_keysOf_eraseKV_self key s i1 (he ▸ hx)
      rcases i2 x hxs with hxr | hex
      · rcases List.mem_cons.1 hxr with he | hxr
        · exact absurd he hxk
        · exact Or.inl hxr
      · exact Or.inr hex
  · intro x hx
    have hxk : x ≠ key := fun he => hord.1 (he ▸ hx)
    rw [mem_keysOf_setKV]
    exact Or.inr (mem_keysOf_eraseKV_of_ne _ _ _
      (i3 x (List.mem_cons_of_mem _ hx)) hxk)
  · intro k hk
    rcases i5 k hk with hkr | hks
    · rcases List.mem_cons.1 hkr with he | hkr
      · subst he
        right
        rw [mem_keysOf_setKV]
        exact Or.inl rfl
      · exact Or.inl hkr
    · right
      rw [mem_keysOf_setKV]
      by_cases heq : toUpperStr k = toUpperStr key
      · exact Or.inl heq
      · right
        apply mem_keysOf_eraseKV_of_ne _ _ _ hks
        intro habs
        apply heq
        rw [← habs, toUpperStr_idem, habs]
  · intro x v hx
    by_cases hxu : toUpperStr key = x
    · rw [← hxu, lookupKV_setKV_self] at hx
      obtain ⟨k, hk1, hk2⟩ := i4 key v0 hv0
      refine ⟨k, by rw [hk1, Option.some_inj.1 hx], ?_⟩
      rw [← hxu, toUpperStr_idem]
      exact hk2
    · rw [lookupKV_setKV_other _ _ _ _ hxu] at hx
      by_cases hxk : x = key
      · rw [hxk, lookupKV_eraseKV_self _ _ i1] at hx
        cases hx
      · rw [lookupKV_eraseKV_other _ _ _ hxk] at hx
        exact i4 x v hx

theorem toUppercase_fold_inv (m : ConfigMap) (ord : List String) :
    ∀ (s : ConfigMap), ord.Nodup → UpInv m s ord →
      UpInv m (toUppercaseConfigMap ord s) [] := by
  induction ord with
  | nil => exact fun s _ h => h
  | cons key rest ih =>
    intro s hord hinv
    show UpInv m (toUppercaseConfigMap rest (toUppercaseStep s key)) []
    exact ih _ (List.nodup_cons.1 hord).2
      (toUppercaseStep_inv m s key rest hord hinv)

/-- C10: with the ignore-case option, for every range order over the
original keys, the stored snapshot has exactly one entry per
uppercased key class: its key set is the uppercase image of the
original key set without duplicates, every surviving value is the
value of one of the original keys of that class (which one depends on
the range order), and Get probed with any case variant returns the
surviving value, with no error reported. -/
theorem toUppercaseConfigMap_spec (m : ConfigMap) (ord : List String)
    (hnd : (keysOf m).Nodup) (hperm : ord.Perm (keysOf m)) :
    (keysOf (toUppercaseConfigMap ord m)).Nodup ∧
    (∀ x, x ∈ keysOf (toUppercaseConfigMap ord m) ↔
      ∃ k ∈ keysOf m, toUpperStr k = x) ∧
    (∀ x v, lookupKV x (toUppercaseConfigMap ord m) = some v →
      ∃ k, lookupKV k m = some v ∧ toUpperStr k = x) ∧
    (∀ castE q v, lookupKV (toUpperStr q) (toUppercaseConfigMap ord m) = some v →
      GetCfg true castE (toUppercaseConfigMap ord m) q [] = v) := by
  have hordnd : ord.Nodup := (hperm.nodup_iff).2 hnd
  have hinv0 : UpInv m m ord := by
    refine ⟨?_, hnd, ?_, ?_, ?_, ?_⟩
    · intro x hx
      exact hperm.mem_iff.1 hx
    · intro x hx
      exact Or.inl (hperm.mem_iff.2 hx)
    · intro x hx
      exact hperm.mem_iff.1 hx
    · intro k hk
      exact Or.inl (hperm.mem_iff.2 hk)
    · intro x v hx
      exact ⟨x, hx, rfl⟩
  obtain ⟨_, f1, f2, _, f5, f4⟩ := toUppercase_fold_inv m ord m hordnd hinv0
  have hmem : ∀ x, x ∈ keysOf (toUppercaseConfigMap ord m) ↔
      ∃ k ∈ keysOf m, toUpperStr k = x := by
    intro x
    constructor
    · intro hx
      rcases f2 x hx with hfalse | hex
      · cases hfalse
      · exact hex
    · intro ⟨k, hk, he⟩
      rcases f5 k hk with hfalse | hu
      · cases hfalse
      · exact he ▸ hu
  refine ⟨f1, hmem, ?_, ?_⟩
  · intro x v hx
    have hxmem : x ∈ keysOf (toUppercaseConfigMap ord m) := by
      rw [← lookupKV_isSome_iff, hx]
      rfl
    obtain ⟨k0, _, hk0⟩ := (hmem x).1 hxmem
    obtain ⟨k, hk1, hk2⟩ := f4 x v hx
    refine ⟨k, hk1, ?_⟩
    rw [hk2, ← hk0, toUpperStr_idem, hk0]
  · intro castE q v hq
    show (lookupKV (toUpperStr q) (toUppercaseConfigMap ord m)).getD Val.vnull = v
    rw [hq]
    rfl

/-- C10 witness: the keys foo and FOO collide after uppercasing; for the
visit order foo then FOO the snapshot keeps exactly one FOO entry,
its value coming from one of the two original entries, and Get with
the probe fOo (ignore-case) returns it. -/
theorem toUppercaseConfigMap_spec_witness :
    (keysOf (toUppercaseConfigMap ["foo", "FOO"]
      [("foo", Val.vstr "1"), ("FOO", Val.vstr "2")])).Nodup ∧
    (∀ x, x ∈ keysOf (toUppercaseConfigMap ["foo", "FOO"]
        [("foo", Val.vstr "1"), ("FOO", Val.vstr "2")]) ↔
      ∃ k ∈ keysOf [("foo", Val.vstr "1"), ("FOO", Val.vstr "2")],
        toUpperStr k = x) ∧
    (∀ x v, lookupKV x (toUppercaseConfigMap ["foo", "FOO"]
        [("foo", Val.vstr "1"), ("FOO", Val.vstr "2")]) = some v →
      ∃ k, lookupKV k [("foo", Val.vstr "1"), ("FOO", Val.vstr "2")] = some v ∧
        toUpperStr k = x) ∧
    (∀ castE q v, lookupKV (toUpperStr q) (toUppercaseConfigMap ["foo", "FOO"]
        [("foo", Val.vstr "1"), ("FOO", Val.vstr "2")]) = some v →
      GetCfg true castE (toUppercaseConfigMap ["foo", "FOO"]
        [("foo", Val.vstr "1"), ("FOO", Val.vstr "2")]) q [] = v) :=
  toUppercaseConfigMap_spec [("foo", Val.vstr "1"), ("FOO", Val.vstr "2")]
    ["foo", "FOO"] (by simp) (by simp [keysOf])

/-! Ownership and deep copy (deepcopy.go, loader_plain.go, and the cache
hit paths of loader_decorator_filecache_loader.go and
loader_consul.go).  Heap sharing is made explicit: every container
(slice of interfaces, slice of strings, slice of ints, string-keyed
map, interface-keyed map) carries the address of its heap cell, a pair
of an allocation generation (which copy call allocated it; each Load
call uses a fresh generation) and a path inside that allocation.
Scalars are carried by reference and are immutable by contract.
Mutation through a reference is modelled by rewriting the content of
the cell with a given address; two values that share no address cannot
affect one another by mutation. -/

/-- Atom is a non-container Go value, carried by reference by the deep
copy default branch; immutable by contract. -/
inductive Atom where
  | anull
  | astr (s : String)
  | aint (n : Int)
  | abool (b : Bool)
  | aother (id : Nat)
deriving DecidableEq

/-- Addr identifies one heap-allocated container: the allocation
generation and the path within the allocation. -/
abbrev Addr := Nat × List Nat

mutual

/-- LVal is a Go value with explicit container addresses. -/
inductive LVal where
  | lscalar (a : Atom)
  | lseq (addr : Addr) (xs : LSeq)
  | lstrs (addr : Addr) (xs : List String)
  | lints (addr : Addr) (xs : List Int)
  | lmap (addr : Addr) (entries : LEntries)
  | limap (addr : Addr) (entries : LIEntries)

/-- LSeq is the element list of an interface slice. -/
inductive LSeq where
  | nil
  | cons (hd : LVal) (tl : LSeq)

/-- LEntries is the entry list of a string-keyed map. -/
inductive LEntries where
  | nil
  | cons (key : String) (val : LVal) (tl : LEntries)

/-- LIEntries is the entry list of an interface-keyed map; keys are
comparable scalars shared by reference, as in the Go code. -/
inductive LIEntries where
  | nil
  | cons (key : Atom) (val : LVal) (tl : LIEntries)

end

mutual

/-- deepCopyValue is the per-value switch shared verbatim by
DeepCopyConfigMap, deepCopyInterfaceMap and deepCopyInterfaceSlice in
deepcopy.go: the five container shapes are cloned into fresh cells,
every other value is carried by reference. -/
def deepCopyValue (g : Nat) (p : List Nat) : LVal -> LVal
  | LVal.lscalar a => LVal.lscalar a
  | LVal.lseq _ xs => LVal.lseq (g, p) (deepCopyInterfaceSlice g p 0 xs)
  | LVal.lstrs _ xs => LVal.lstrs (g, p) xs
  | LVal.lints _ xs => LVal.lints (g, p) xs
  | LVal.lmap _ es => LVal.lmap (g, p) (DeepCopyConfigMap g p 0 es)
  | LVal.limap _ es => LVal.limap (g, p) (deepCopyInterfaceMap g p 0 es)

/-- deepCopyInterfaceSlice clones an interface slice element-wise. -/
def deepCopyInterfaceSlice (g : Nat) (p : List Nat) (i : Nat) : LSeq -> LSeq
  | LSeq.nil => LSeq.nil
  | LSeq.cons hd tl =>
    LSeq.cons (deepCopyValue g (i :: p) hd) (deepCopyInterfaceSlice g p (i + 1) tl)

/-- DeepCopyConfigMap clones a string-keyed map entry-wise, keys reused. -/
def DeepCopyConfigMap (g : Nat) (p : List Nat) (i : Nat) : LEntries -> LEntries
  | LEntries.nil => LEntries.nil
  | LEntries.cons k v tl =>
    LEntries.cons k (deepCopyValue g (i :: p) v) (DeepCopyConfigMap g p (i + 1) tl)

/-- deepCopyInterfaceMap clones an interface-keyed map entry-wise. -/
def deepCopyInterfaceMap (g : Nat) (p : List Nat) (i : Nat) : LIEntries -> LIEntries
  | LIEntries.nil => LIEntries.nil
  | LIEntries.cons k v tl =>
    LIEntries.cons k (deepCopyValue g (i :: p) v) (deepCopyInterfaceMap g p (i + 1) tl)

end

mutual

/-- eraseLV forgets the container addresses, giving the pure structural
content of a value. -/
def eraseLV : LVal -> LVal
  | LVal.lscalar a => LVal.lscalar a
  | LVal.lseq _ xs => LVal.lseq (0, []) (eraseSeq xs)
  | LVal.lstrs _ xs => LVal.lstrs (0, []) xs
  | LVal.lints _ xs => LVal.lints (0, []) xs
  | LVal.lmap _ es => LVal.lmap (0, []) (eraseEntries es)
  | LVal.limap _ es => LVal.limap (0, []) (eraseIEntries es)

/-- eraseSeq forgets the addresses in slice elements. -/
def eraseSeq : LSeq -> LSeq
  | LSeq.nil => LSeq.nil
  | LSeq.cons hd tl => LSeq.cons (eraseLV hd) (eraseSeq tl)

/-- eraseEntries forgets the addresses in string-keyed map entries. -/
def eraseEntries : LEntries -> LEntries
  | LEntries.nil => LEntries.nil
  | LEntries.cons k v tl => LEntries.cons k (eraseLV v) (eraseEntries tl)

/-- eraseIEntries forgets the addresses in interface-keyed map entries. -/
def eraseIEntries : LIEntries -> LIEntries
  | LIEntries.nil => LIEntries.nil
  | LIEntries.cons k v tl => LIEntries.cons k (eraseLV v) (eraseIEntries tl)

end

mutual

/-- hasAddrLV holds when a container of the value lives at the cell a. -/
def hasAddrLV (a : Addr) : LVal -> Bool
  | LVal.lscalar _ => false
  | LVal.lseq b xs => if b = a then true else hasAddrSeq a xs
  | LVal.lstrs b _ => if b = a then true else false
  | LVal.lints b _ => if b = a then true else false
  | LVal.lmap b es => if b = a then true else hasAddrEntries a es
  | LVal.limap b es => if b = a then true else hasAddrIEntries a es

/-- hasAddrSeq extends hasAddrLV to slice elements. -/
def hasAddrSeq (a : Addr) : LSeq -> Bool
  | LSeq.nil => false
  | LSeq.cons hd tl => hasAddrLV a hd || hasAddrSeq a tl

/-- hasAddrEntries extends hasAddrLV to string-keyed map entries. -/
def hasAddrEntries (a : Addr) : LEntries -> Bool
  | LEntries.nil => false
  | LEntries.cons _ v tl => hasAddrLV a v || hasAddrEntries a tl

/-- hasAddrIEntries extends hasAddrLV to interface-keyed map entries. -/
def hasAddrIEntries (a : Addr) : LIEntries -> Bool
  | LIEntries.nil => false
  | LIEntries.cons _ v tl => hasAddrLV a v || hasAddrIEntries a tl

end

mutual

/-- mutateAtLV applies an arbitrary in-place mutation f to every
container cell with address a; a value not holding the cell is
unaffected. -/
def mutateAtLV (a : Addr) (f : LVal -> LVal) : LVal -> LVal
  | LVal.lscalar s => LVal.lscalar s
  | LVal.lseq b xs =>
    if b = a then f (LVal.lseq b xs) else LVal.lseq b (mutateAtSeq a f xs)
  | LVal.lstrs b xs => if b = a then f (LVal.lstrs b xs) else LVal.lstrs b xs
  | LVal.lints b xs => if b = a then f (LVal.lints b xs) else LVal.lints b xs
  | LVal.lmap b es =>
    if b = a then f (LVal.lmap b es) else LVal.lmap b (mutateAtEntries a f es)
  | LVal.limap b es =>
    if b = a then f (LVal.limap b es) else LVal.limap b (mutateAtIEntries a f es)

/-- mutateAtSeq extends mutateAtLV to slice elements. -/
def mutateAtSeq (a : Addr) (f : LVal -> LVal) : LSeq -> LSeq
  | LSeq.nil => LSeq.nil
  | LSeq.cons hd tl => LSeq.cons (mutateAtLV a f hd) (mutateAtSeq a f tl)

/-- mutateAtEntries extends mutateAtLV to string-keyed map entries. -/
def mutateAtEntries (a : Addr) (f : LVal -> LVal) : LEntries -> LEntries
  | LEntries.nil => LEntries.nil
  | LEntries.cons k v tl =>
    LEntries.cons k (mutateAtLV a f v) (mutateAtEntries a f tl)

/-- mutateAtIEntries extends mutateAtLV to interface-keyed map entries. -/
def mutateAtIEntries (a : Addr) (f : LVal -> LVal) : LIEntries -> LIEntries
  | LIEntries.nil => LIEntries.nil
  | LIEntries.cons k v tl =>
    LIEntries.cons k (mutateAtLV a f v) (mutateAtIEntries a f tl)

end

mutual

theorem eraseCopyLV (g : Nat) (p : List Nat) :
    (v : LVal) -> eraseLV (deepCopyValue g p v) = eraseLV v
  | LVal.lscalar a => rfl
  | LVal.lseq b xs => by
    show LVal.lseq (0, []) (eraseSeq (deepCopyInterfaceSlice g p 0 xs)) =
      LVal.lseq (0, []) (eraseSeq xs)
    rw [eraseCopySeq g p 0 xs]
  | LVal.lstrs b xs => rfl
  | LVal.lints b xs => rfl
  | LVal.lmap b es => by
    show LVal.lmap (0, []) (eraseEntries (DeepCopyConfigMap g p 0 es)) =
      LVal.lmap (0, []) (eraseEntries es)
    rw [eraseCopyEntries g p 0 es]
  | LVal.limap b es => by
    show LVal.limap (0, []) (eraseIEntries (deepCopyInterfaceMap g p 0 es)) =
      LVal.limap (0, []) (eraseIEntries es)
    rw [eraseCopyIEntries g p 0 es]

theorem eraseCopySeq (g : Nat) (p : List Nat) (i : Nat) :
    (xs : LSeq) -> eraseSeq (deepCopyInterfaceSlice g p i xs) = eraseSeq xs
  | LSeq.nil => rfl
  | LSeq.cons hd tl => by
    show LSeq.cons (eraseLV (deepCopyValue g (i :: p) hd))
        (eraseSeq (deepCopyInterfaceSlice g p (i + 1) tl)) =
      LSeq.cons (eraseLV hd) (eraseSeq tl)
    rw [eraseCopyLV g (i :: p) hd, eraseCopySeq g p (i + 1) tl]

theorem eraseCopyEntries (g : Nat) (p : List Nat) (i : Nat) :
    (es : LEntries) -> eraseEntries (DeepCopyConfigMap g p i es) = eraseEntries es
  | LEntries.nil => rfl
  | LEntries.cons k v tl => by
    show LEntries.cons k (eraseLV (deepCopyValue g (i :: p) v))
        (eraseEntries (DeepCopyConfigMap g p (i + 1) tl)) =
      LEntries.cons k (eraseLV v) (eraseEntries tl)
    rw [eraseCopyLV g (i :: p) v, eraseCopyEntries g p (i + 1) tl]

theorem eraseCopyIEntries (g : Nat) (p : List Nat) (i : Nat) :
    (es : LIEntries) ->
      eraseIEntries (deepCopyInterfaceMap g p i es) = eraseIEntries es
  | LIEntries.nil => rfl
  | LIEntries.cons k v tl => by
    show LIEntries.cons k (eraseLV (deepCopyValue g (i :: p) v))
        (eraseIEntries (deepCopyInterfaceMap g p (i + 1) tl)) =
      LIEntries.cons k (eraseLV v) (eraseIEntries tl)
    rw [eraseCopyLV g (i :: p) v, eraseCopyIEntries g p (i + 1) tl]

end

mutual

theorem copyGenLV (g : Nat) (p : List Nat) (a : Addr) :
    (v : LVal) -> hasAddrLV a (deepCopyValue g p v) = true -> a.1 = g
  | LVal.lscalar s => by
    intro h
    simp [deepCopyValue, hasAddrLV] at h
  | LVal.lseq b xs => by
    intro h
    show a.1 = g
    by_cases he : (g, p) = a
    · rw [← he]
    · have h2 : hasAddrSeq a (deepCopyInterfaceSlice g p 0 xs) = true := by
        have : hasAddrLV a (LVal.lseq (g, p) (deepCopyInterfaceSlice g p 0 xs)) = true := h
        rw [hasAddrLV, if_neg he] at this
        exact this
      exact copyGenSeq g p 0 a xs h2
  | LVal.lstrs b xs => by
    intro h
    by_cases he : (g, p) = a
    · rw [← he]
    · have : hasAddrLV a (LVal.lstrs (g, p) xs) = true := h
      rw [hasAddrLV, if_neg he] at this
      cases this
  | LVal.lints b xs => by
    intro h
    by_cases he : (g, p) = a
    · rw [← he]
    · have : hasAddrLV a (LVal.lints (g, p) xs) = true := h
      rw [hasAddrLV, if_neg he] at this
      cases this
  | LVal.lmap b es => by
    intro h
    by_cases he : (g, p) = a
    · rw [← he]
    · have h2 : hasAddrEntries a (DeepCopyConfigMap g p 0 es) = true := by
        have : hasAddrLV a (LVal.lmap (g, p) (DeepCopyConfigMap g p 0 es)) = true := h
        rw [hasAddrLV, if_neg he] at this
        exact this
      exact copyGenEntries g p 0 a es h2
  | LVal.limap b es => by
    intro h
    by_cases he : (g, p) = a
    · rw [← he]
    · have h2 : hasAddrIEntries a (deepCopyInterfaceMap g p 0 es) = true := by
        have : hasAddrLV a (LVal.limap (g, p) (deepCopyInterfaceMap g p 0 es)) = true := h
        rw [hasAddrLV, if_neg he] at this
        exact this
      exact copyGenIEntries g p 0 a es h2

theorem copyGenSeq (g : Nat) (p : List Nat) (i : Nat) (a : Addr) :
    (xs : LSeq) -> hasAddrSeq a (deepCopyInterfaceSlice g p i xs) = true -> a.1 = g
  | LSeq.nil => by
    intro h
    simp [deepCopyInterfaceSlice, hasAddrSeq] at h
  | LSeq.cons hd tl => by
    intro h
    have : (hasAddrLV a (deepCopyValue g (i :: p) hd) ||
        hasAddrSeq a (deepCopyInterfaceSlice g p (i + 1) tl)) = true := h
    rcases Bool.or_eq_true_iff.1 this with h2 | h2
    · exact copyGenLV g (i :: p) a hd h2
    · exact copyGenSeq g p (i + 1) a tl h2

theorem copyGenEntries (g : Nat) (p : List Nat) (i : Nat) (a : Addr) :
    (es : LEntries) ->
      hasAddrEntries a (DeepCopyConfigMap g p i es) = true -> a.1 = g
  | LEntries.nil => by
    intro h
    simp [DeepCopyConfigMap, hasAddrEntries] at h
  | LEntries.cons k v tl => by
    intro h
    have : (hasAddrLV a (deepCopyValue g (i :: p) v) ||
        hasAddrEntries a (DeepCopyConfigMap g p (i + 1) tl)) = true := h
    rcases Bool.or_eq_true_iff.1 this with h2 | h2
    · exact copyGenLV g (i :: p) a v h2
    · exact copyGenEntries g p (i + 1) a tl h2

theorem copyGenIEntries (g : Nat) (p : List Nat) (i : Nat) (a : Addr) :
    (es : LIEntries) ->
      hasAddrIEntries a (deepCopyInterfaceMap g p i es) = true -> a.1 = g
  | LIEntries.nil => by
    intro h
    simp [deepCopyInterfaceMap, hasAddrIEntries] at h
  | LIEntries.cons k v tl => by
    intro h
    have : (hasAddrLV a (deepCopyValue g (i :: p) v) ||
        hasAddrIEntries a (deepCopyInterfaceMap g p (i + 1) tl)) = true := h
    rcases Bool.or_eq_true_iff.1 this with h2 | h2
    · exact copyGenLV g (i :: p) a v h2
    · exact copyGenIEntries g p (i + 1) a tl h2

end

mutual

theorem mutateNotHasLV (a : Addr) (f : LVal -> LVal) :
    (v : LVal) -> hasAddrLV a v = false -> mutateAtLV a f v = v
  | LVal.lscalar s => fun _ => rfl
  | LVal.lseq b xs => by
    intro h
    rw [hasAddrLV] at h
    by_cases he : b = a
    · rw [if_pos he] at h
      cases h
    · rw [if_neg he] at h
      rw [mutateAtLV, if_neg he, mutateNotHasSeq a f xs h]
  | LVal.lstrs b xs => by
    intro h
    rw [hasAddrLV] at h
    by_cases he : b = a
    · rw [if_pos he] at h
      cases h
    · rw [mutateAtLV, if_neg he]
  | LVal.lints b xs => by
    intro h
    rw [hasAddrLV] at h
    by_cases he : b = a
    · rw [if_pos he] at h
      cases h
    · rw [mutateAtLV, if_neg he]
  | LVal.lmap b es => by
    intro h
    rw [hasAddrLV] at h
    by_cases he : b = a
    · rw [if_pos he] at h
      cases h
    · rw [if_neg he] at h
      rw [mutateAtLV, if_neg he, mutateNotHasEntries a f es h]
  | LVal.limap b es => by
    intro h
    rw [hasAddrLV] at h
    by_cases he : b = a
    · rw [if_pos he] at h
      cases h
    · rw [if_neg he] at h
      rw [mutateAtLV, if_neg he, mutateNotHasIEntries a f es h]

theorem mutateNotHasSeq (a : Addr) (f : LVal -> LVal) :
    (xs : LSeq) -> hasAddrSeq a xs = false -> mutateAtSeq a f xs = xs
  | LSeq.nil => fun _ => rfl
  | LSeq.cons hd tl => by
    intro h
    rw [hasAddrSeq, Bool.or_eq_false_iff] at h
    rw [mutateAtSeq, mutateNotHasLV a f hd h.1, mutateNotHasSeq a f tl h.2]

theorem mutateNotHasEntries (a : Addr) (f : LVal -> LVal) :
    (es : LEntries) -> hasAddrEntries a es = false -> mutateAtEntries a f es = es
  | LEntries.nil => fun _ => rfl
  | LEntries.cons k v tl => by
    intro h
    rw [hasAddrEntries, Bool.or_eq_false_iff] at h
    rw [mutateAtEntries, mutateNotHasLV a f v h.1, mutateNotHasEntries a f tl h.2]

theorem mutateNotHasIEntries (a : Addr) (f : LVal -> LVal) :
    (es : LIEntries) -> hasAddrIEntries a es = false -> mutateAtIEntries a f es = es
  | LIEntries.nil => fun _ => rfl
  | LIEntries.cons k v tl => by
    intro h
    rw [hasAddrIEntries, Bool.or_eq_false_iff] at h
    rw [mutateAtIEntries, mutateNotHasLV a f v h.1,
      mutateNotHasIEntries a f tl h.2]

end

theorem mutate_copy_of_gen_ne (gm gv : Nat) (p : List Nat) (a : Addr)
    (f : LVal -> LVal) (v : LVal) (hga : a.1 = gm) (hne : gm ≠ gv) :
    mutateAtLV a f (deepCopyValue gv p v) = deepCopyValue gv p v := by
  apply mutateNotHasLV
  by_contra h
  rw [Bool.not_eq_false] at h
  exact hne (hga ▸ copyGenLV gv p a v h)

/-- PlainLoaderState is the private construction-time copy taken by
PlainLoader (generation 0). -/
def PlainLoaderState (configMap : LVal) : LVal := deepCopyValue 0 [] configMap

/-- PlainLoaderLoad is one Load call of the PlainLoader closure: a fresh
deep copy of the private state, allocated at the fresh generation g of
this call. -/
def PlainLoaderLoad (state : LVal) (g : Nat) : LVal := deepCopyValue g [] state

/-- fileCacheLV is the fileCache pair with heap addresses on the cached
snapshot. -/
structure fileCacheLV where
  configMap : LVal
  lastModified : Int

/-- fileCacheLoadLV embeds fileCache.load: when the file modification
time has not advanced past the cached one, a fresh deep copy of the
cached snapshot is returned. -/
def fileCacheLoadLV (cache : fileCacheLV) (currentLastModified : Int) (g : Nat) :
    Option LVal :=
  if ¬ cache.lastModified < currentLastModified then
    some (deepCopyValue g [] cache.configMap)
  else none

/-- consulCacheLV is the consulCache pair with heap addresses on the
cached snapshot. -/
structure consulCacheLV where
  configMap : LVal
  versionIDs : List (String × Int)

/-- consulCacheLoadLV embeds consulCache.load at the heap level: the same
hit condition as consulCacheLoad, the hit returning a fresh deep copy
of the cached snapshot. -/
def consulCacheLoadLV (c : consulCacheLV) (kvPairs : List consulKVPair) (g : Nat) :
    Option LVal :=
  if kvPairs.length = 0 ∨ kvPairs.length ≠ c.versionIDs.length then none
  else if kvPairs.all
      (fun p => p.ModifyIndex == (lookupKV p.Key c.versionIDs).getD 0) then
    some (deepCopyValue g [] c.configMap)
  else none

/-- C1: ownership invariant of the stateful loaders.  For the plain
loader and for the cache hit paths of the file cache and the Consul
cache, every Load returns a map that is structurally equal to the
stored configuration (erasing heap addresses), and whose container
cells are all allocated at the fresh generation of that call; hence
mutating any container cell reachable from one returned map leaves
both a map returned by another Load call and the internal cached state
unchanged: no mapping or sequence reference is shared. -/
theorem Loader_ownership :
    (∀ (userMap : LVal) (g1 g2 : Nat) (a : Addr) (f : LVal -> LVal),
      g1 ≠ 0 -> g2 ≠ 0 -> g1 ≠ g2 ->
      eraseLV (PlainLoaderLoad (PlainLoaderState userMap) g1) = eraseLV userMap ∧
      (hasAddrLV a (PlainLoaderLoad (PlainLoaderState userMap) g1) = true ->
        mutateAtLV a f (PlainLoaderLoad (PlainLoaderState userMap) g2) =
          PlainLoaderLoad (PlainLoaderState userMap) g2 ∧
        mutateAtLV a f (PlainLoaderState userMap) = PlainLoaderState userMap)) ∧
    (∀ (cache : fileCacheLV) (t : Int) (g1 g2 : Nat) (m1 m2 : LVal)
      (a : Addr) (f : LVal -> LVal),
      g1 ≠ g2 ->
      (∀ b, hasAddrLV b cache.configMap = true -> b.1 ≠ g1 ∧ b.1 ≠ g2) ->
      fileCacheLoadLV cache t g1 = some m1 ->
      fileCacheLoadLV cache t g2 = some m2 ->
      eraseLV m1 = eraseLV cache.configMap ∧
      eraseLV m2 = eraseLV cache.configMap ∧
      (hasAddrLV a m1 = true ->
        mutateAtLV a f m2 = m2 ∧
        mutateAtLV a f cache.configMap = cache.configMap)) ∧
    (∀ (cache : consulCacheLV) (kvPairs : List consulKVPair) (g1 g2 : Nat)
      (m1 m2 : LVal) (a : Addr) (f : LVal -> LVal),
      g1 ≠ g2 ->
      (∀ b, hasAddrLV b cache.configMap = true -> b.1 ≠ g1 ∧ b.1 ≠ g2) ->
      consulCacheLoadLV cache kvPairs g1 = some m1 ->
      consulCacheLoadLV cache kvPairs g2 = some m2 ->
      eraseLV m1 = eraseLV cache.configMap ∧
      eraseLV m2 = eraseLV cache.configMap ∧
      (hasAddrLV a m1 = true ->
        mutateAtLV a f m2 = m2 ∧
        mutateAtLV a f cache.configMap = cache.configMap)) := by
  refine ⟨?_, ?_, ?_⟩
  · intro userMap g1 g2 a f hg1 _ hgd
    constructor
    · show eraseLV (deepCopyValue g1 [] (deepCopyValue 0 [] userMap)) = eraseLV userMap
      rw [eraseCopyLV, eraseCopyLV]
    · intro ha
      have hag1 : a.1 = g1 := copyGenLV g1 [] a _ ha
      exact ⟨mutate_copy_of_gen_ne g1 g2 [] a f _ hag1 hgd,
        mutate_copy_of_gen_ne g1 0 [] a f userMap hag1 hg1⟩
  · intro cache t g1 g2 m1 m2 a f hgd hgen h1 h2
    have hext : ∀ g m, fileCacheLoadLV cache t g = some m ->
        m = deepCopyValue g [] cache.configMap := by
      intro g m h
      unfold fileCacheLoadLV at h
      by_cases hc : ¬ cache.lastModified < t
      · rw [if_pos hc] at h
        exact (Option.some_inj.1 h).symm
      · rw [if_neg hc] at h
        cases h
    have hm1 := hext g1 m1 h1
    have hm2 := hext g2 m2 h2
    refine ⟨by rw [hm1, eraseCopyLV], by rw [hm2, eraseCopyLV], ?_⟩
    intro ha
    have hag1 : a.1 = g1 := copyGenLV g1 [] a cache.configMap (hm1 ▸ ha)
    refine ⟨by rw [hm2]; exact mutate_copy_of_gen_ne g1 g2 [] a f _ hag1 hgd, ?_⟩
    apply mutateNotHasLV
    by_contra hc
    rw [Bool.not_eq_false] at hc
    exact (hgen a hc).1 hag1
  · intro cache kvPairs g1 g2 m1 m2 a f hgd hgen h1 h2
    have hext : ∀ g m, consulCacheLoadLV cache kvPairs g = some m ->
        m = deepCopyValue g [] cache.configMap := by
      intro g m h
      unfold consulCacheLoadLV at h
      by_cases hc1 : kvPairs.length = 0 ∨ kvPairs.length ≠ cache.versionIDs.length
      · rw [if_pos hc1] at h
        cases h
      · rw [if_neg hc1] at h
        by_cases hc2 : kvPairs.all
            (fun p => p.ModifyIndex == (lookupKV p.Key cache.versionIDs).getD 0) = true
        · rw [if_pos hc2] at h
          exact (Option.some_inj.1 h).symm
        · rw [if_neg hc2] at h
          cases h
    have hm1 := hext g1 m1 h1
    have hm2 := hext g2 m2 h2
    refine ⟨by rw [hm1, eraseCopyLV], by rw [hm2, eraseCopyLV], ?_⟩
    intro ha
    have hag1 : a.1 = g1 := copyGenLV g1 [] a cache.configMap (hm1 ▸ ha)
    refine ⟨by rw [hm2]; exact mutate_copy_of_gen_ne g1 g2 [] a f _ hag1 hgd, ?_⟩
    apply mutateNotHasLV
    by_contra hc
    rw [Bool.not_eq_false] at hc
    exact (hgen a hc).1 hag1

/-- demoMapC1 is the scenario S1 configuration: a text entry and a
shopping-list sequence. -/
def demoMapC1 : LVal :=
  LVal.lmap (0, [])
    (LEntries.cons "yaml_foo" (LVal.lscalar (Atom.astr "bar"))
      (LEntries.cons "yaml_shopping_list"
        (LVal.lstrs (0, [0]) ["bread", "milk", "eggs"]) LEntries.nil))

/-- C1 witness: two Loads of a plain loader over the S1 map at fresh
generations 1 and 2; the first result is structurally equal to the
source, and smashing the root cell of the first result leaves the
second result and the internal state untouched. -/
theorem Loader_ownership_witness :
    eraseLV (PlainLoaderLoad (PlainLoaderState demoMapC1) 1) = eraseLV demoMapC1 ∧
    mutateAtLV (1, []) (fun _ => LVal.lscalar (Atom.aint 7))
      (PlainLoaderLoad (PlainLoaderState demoMapC1) 2) =
      PlainLoaderLoad (PlainLoaderState demoMapC1) 2 ∧
    mutateAtLV (1, []) (fun _ => LVal.lscalar (Atom.aint 7))
      (PlainLoaderState demoMapC1) = PlainLoaderState demoMapC1 := by
  have h := (Loader_ownership).1 demoMapC1 1 2 (1, [])
    (fun _ => LVal.lscalar (Atom.aint 7)) (by decide) (by decide) (by decide)
  have h2 := h.2 (by rfl)
  exact ⟨h.1, h2.1, h2.2⟩

end Xconf
